import Mathlib

/-!
# Verification of the Routing-Proctols repository (dvr.py and lsr.py)

Shallow embedding of the two routing engines of the repository:

* `dvr.py` — a centralized distance-vector (Bellman–Ford style) fixpoint
  computation over insertion-ordered dictionaries, plus a message-forwarding
  simulator that chases next hops.
* `lsr.py` — a link-state engine running one Dijkstra computation per source
  over a priority queue of `(distance, node, path)` tuples.

Python dictionaries are modelled as insertion-ordered association lists
(`aset` replaces in place or appends, exactly like `d[k] = v`; `apop`
removes a key like `d.pop(k, None)`; equality of the association lists over
a run of the convergence loop coincides with Python dict equality because a
table is only ever modified in place or extended).  Node identifiers are
modelled as `ℕ` (`lsr.py` uses `int` ids; `dvr.py` uses strings ordered
lexicographically, an order isomorphic to `ℕ` on the single-token ids of the
examples; only the total order matters to the code).  ℤs are `ℤ`, as both
files parse them with `int(...)`.  Potentially raising operations
(`KeyError` on an unguarded `d[k]`) and potentially diverging loops are
modelled with `Option`: `none` means the Python code raises or never
returns.  Fuel parameters stand for the number of loop iterations executed;
`none` for every fuel means the loop never exits.
-/

namespace Routing


/-- Lookup in an insertion-ordered association list (Python `d[k]` /
`d.get(k)`): first matching key. -/
def alookup {α : Type} : List (ℕ × α) → ℕ → Option α
  | [], _ => none
  | p :: rest, k => if p.1 = k then some p.2 else alookup rest k

/-- Python `d[k] = v`: replace the value in place if the key is present
(keeping its position), otherwise append the new key at the end. -/
def aset {α : Type} : List (ℕ × α) → ℕ → α → List (ℕ × α)
  | [], k, v => [(k, v)]
  | p :: rest, k, v => if p.1 = k then (k, v) :: rest else p :: aset rest k v

/-- Python `d.pop(k, None)` / `del d[k]`: remove the key.  On the key-nodup
lists that model Python dicts this is removal of the unique occurrence. -/
def apop {α : Type} : List (ℕ × α) → ℕ → List (ℕ × α)
  | [], _ => []
  | p :: rest, k => if p.1 = k then apop rest k else p :: apop rest k

/-- Keys of an association list, in insertion order. -/
def keysOf {α : Type} (l : List (ℕ × α)) : List ℕ :=
  l.map Prod.fst

/-- A node's neighbour map: neighbour id ↦ link cost. -/
abbrev Row := List (ℕ × ℤ)

/-- The topology: node id ↦ neighbour map.  Used both as
`NetworkSimulator.topology` in dvr.py and as the `nodes[id].links` arena of
lsr.py (both files build the same symmetric insertion-ordered structure from
the link list). -/
abbrev Topology := List (ℕ × Row)

/-- Two-level lookup `d[a][b]` (second level `Option`-guarded). -/
def alookup2 {α : Type} (t : List (ℕ × List (ℕ × α))) (a b : ℕ) :
    Option α :=
  match alookup t a with
  | none => none
  | some row => alookup row b

/-- Two-level write `d[a][b] = v`, where a missing outer key gives an empty
inner dict (the simulators always have the outer key present). -/
def aset2 {α : Type} (t : List (ℕ × List (ℕ × α))) (a b : ℕ)
    (v : α) : List (ℕ × List (ℕ × α)) :=
  aset t a (aset ((alookup t a).getD []) b v)

/-- Well-formedness of a topology as built from a link file: unique node
keys, unique neighbour keys in every row, no self loops, and symmetry
(`cost(a,b)` present iff `cost(b,a)` present, with the same value).  These
are invariants of the structures `read_topology`/`add_link` produce. -/
structure TopoWF (topo : Topology) : Prop where
  keys_nodup : (keysOf topo).Nodup
  rows_nodup : ∀ p ∈ topo, (keysOf p.2).Nodup
  no_self : ∀ p ∈ topo, ∀ q ∈ p.2, q.1 ≠ p.1
  symm : ∀ p ∈ topo, ∀ q ∈ p.2, alookup2 topo q.1 p.1 = some q.2

/-- All link costs are non-negative. -/
def TopoNonNeg (topo : Topology) : Prop :=
  ∀ p ∈ topo, ∀ q ∈ p.2, 0 ≤ q.2

/-- All link costs are strictly positive. -/
def TopoPos (topo : Topology) : Prop :=
  ∀ p ∈ topo, ∀ q ∈ p.2, 1 ≤ q.2

namespace Dvr

/-- One routing-table entry of dvr.py: `(cost, next_hop)`. -/
abbrev Entry := ℤ × ℕ

/-- One node's routing table: destination ↦ entry. -/
abbrev Table := List (ℕ × Entry)

/-- `self.routing_tables`: node ↦ its routing table. -/
abbrev Tables := List (ℕ × Table)

/-- `{node: {node: (0, node)} for node in self.topology}` — the initial
(and post-change re-initialized) routing tables. -/
def init_tables (topo : Topology) : Tables :=
  topo.map (fun p => (p.1, [(p.1, ((0 : ℤ), p.1))]))

/-- The body of the inner loop of `update_routing_table`, for one
destination entry `(dest, (neighbor_total_cost, next_hop))` read from the
neighbour's table.  Note that the tie-break compares `neighbor` with the
`next_hop` stored in the *neighbour's* entry (the tuple unpacked by the
`for` loop), exactly as the Python source does. -/
def relaxOne (node neighbor : ℕ) (link_cost : ℤ)
    (acc : Tables × Bool) (de : ℕ × Entry) : Tables × Bool :=
  let new_cost := link_cost + de.2.1
  match alookup2 acc.1 node de.1 with
  | none => (aset2 acc.1 node de.1 (new_cost, neighbor), true)
  | some e =>
    if new_cost < e.1 then (aset2 acc.1 node de.1 (new_cost, neighbor), true)
    else if new_cost = e.1 ∧ neighbor < de.2.2 then
      (aset2 acc.1 node de.1 (new_cost, neighbor), true)
    else acc

/-- `update_routing_table(node, neighbors)`: for each neighbour, iterate
over the neighbour's current table (`self.routing_tables[neighbor].items()`,
snapshot taken when the neighbour's loop starts; the neighbour's table is
not mutated during its own inner loop since the topology has no self
loops) and relax every destination. -/
def update_routing_table (t : Tables) (node : ℕ) (neighbors : Row) :
    Tables × Bool :=
  neighbors.foldl
    (fun acc nb =>
      ((alookup acc.1 nb.1).getD []).foldl (relaxOne node nb.1 nb.2) acc)
    (t, false)

/-- One full sweep of `dvr_convergence` over all nodes, returning the new
tables and whether any `update_routing_table` call reported an update. -/
def sweepF (topo : Topology) (t : Tables) : Tables × Bool :=
  topo.foldl
    (fun acc p =>
      let r := update_routing_table acc.1 p.1 p.2
      (r.1, acc.2 || r.2))
    (t, false)

/-- The tables produced by one sweep. -/
def sweepT (topo : Topology) (t : Tables) : Tables :=
  (sweepF topo t).1

/-- `dvr_convergence`: repeat sweeps until a sweep reports no update or
leaves the tables unchanged (`previous_routing_tables == self.routing_tables`).
`none` means the `while changed` loop is still running after `fuel`
sweeps — `(∀ fuel, ... = none)` states that the loop never exits. -/
def dvr_convergence (topo : Topology) : Nat → Tables → Option Tables
  | 0, _ => none
  | fuel + 1, t =>
    let r := sweepF topo t
    if r.1 = t ∨ r.2 = false then some r.1
    else dvr_convergence topo fuel r.1

/-- Run the distance-vector engine from the initial self-only tables. -/
def dvrRun (fuel : Nat) (topo : Topology) : Option Tables :=
  dvr_convergence topo fuel (init_tables topo)

/-- The `while next_hop != destination` chase of `simulate_messages`.
`none` models both a `KeyError` (chasing into a node with no entry for the
destination) and non-termination within `fuel` steps. -/
def chase (t : Tables) (destination : ℕ) :
    Nat → List ℕ → ℕ → Option (List ℕ)
  | 0, _, _ => none
  | fuel + 1, path, next_hop =>
    if next_hop = destination then some path
    else
      match alookup2 t next_hop destination with
      | none => none
      | some e => chase t destination fuel (path ++ [next_hop]) e.2

/-- One iteration of `simulate_messages` for the message
`(source, destination, message_text)`.  `none` models an exception or a
diverging chase: in particular `self.routing_tables[source]` raises
`KeyError` when the source is absent. -/
def simulate_message (t : Tables) (fuel : Nat)
    (source destination : ℕ) (message_text : String) : Option String :=
  match alookup t source with
  | none => none
  | some row =>
    match alookup row destination with
    | none =>
      some (s!"from {source} to {destination} cost infinite hops unreachable message {message_text}")
    | some e =>
      match chase t destination fuel [source] e.2 with
      | none => none
      | some path =>
        let path_cost := e.1
        let hops_path :=
          if path.length > 1 then String.intercalate " " (path.map toString)
          else "unreachable"
        some (s!"from {source} to {destination} cost {path_cost} hops {hops_path} message {message_text}")

/-- `read_topology`: build the topology from `(node1, node2, cost)` lines
via `topology.setdefault(node1, {})[node2] = cost` and the mirror write
(`aset2` appends a fresh outer key exactly like `setdefault`). -/
def read_topology (links : List (ℕ × ℕ × ℤ)) : Topology :=
  links.foldl
    (fun topo l => aset2 (aset2 topo l.1 l.2.1 l.2.2) l.2.1 l.1 l.2.2) []

/-- One change application from `run_simulation`:
`cost == -999` does `self.topology[node1].pop(node2, None)` and the mirror
pop; any other cost does `self.topology[node1][node2] = new_cost` and the
mirror write.  Indexing `self.topology[nodeX]` raises `KeyError` (`none`)
when that endpoint was never seen. -/
def apply_change (topo : Topology) (node1 node2 : ℕ) (new_cost : ℤ) :
    Option Topology :=
  if new_cost = -999 then
    match alookup topo node1 with
    | none => none
    | some row1 =>
      let topo1 := aset topo node1 (apop row1 node2)
      match alookup topo1 node2 with
      | none => none
      | some row2 => some (aset topo1 node2 (apop row2 node1))
  else
    match alookup topo node1 with
    | none => none
    | some row1 =>
      let topo1 := aset topo node1 (aset row1 node2 new_cost)
      match alookup topo1 node2 with
      | none => none
      | some row2 => some (aset topo1 node2 (aset row2 node1 new_cost))

end Dvr

namespace Lsr

/-- lsr.py's `Network.nodes`, flattened to node id ↦ `links` (the only per
node data Dijkstra reads; `routing_table` attributes are unused by the
module's functions, which build a separate `routing_tables` dict). -/
abbrev Network := Topology

/-- `Network.add_link`: create missing endpoint nodes, then set the link
cost in both directions. -/
def add_link (net : Network) (node1 node2 : ℕ) (cost : ℤ) : Network :=
  let net1 := if (alookup net node1).isSome then net else net ++ [(node1, [])]
  let net2 := if (alookup net1 node2).isSome then net1 else net1 ++ [(node2, [])]
  let net3 := aset net2 node1 (aset ((alookup net2 node1).getD []) node2 cost)
  aset net3 node2 (aset ((alookup net3 node2).getD []) node1 cost)

/-- Build a network from a list of `(node1, node2, cost)` links, as
`read_topology` does line by line. -/
def read_topology (links : List (ℕ × ℕ × ℤ)) : Network :=
  links.foldl (fun net l => add_link net l.1 l.2.1 l.2.2) []

/-- A priority-queue element `(distance, node, path)` as pushed by
`heapq.heappush`. -/
abbrev PqElem := ℤ × ℕ × List ℕ

/-- Lexicographic order on Python lists of ints. -/
def listLt : List ℕ → List ℕ → Bool
  | [], [] => false
  | [], _ :: _ => true
  | _ :: _, [] => false
  | a :: as, b :: bs =>
    if a < b then true else if b < a then false else listLt as bs

/-- Python's tuple comparison on `(distance, node, path)` triples — the
order `heapq` uses: distance first, then node id, then the path list. -/
def pqLt (x y : PqElem) : Bool :=
  if x.1 < y.1 then true
  else if y.1 < x.1 then false
  else if x.2.1 < y.2.1 then true
  else if y.2.1 < x.2.1 then false
  else listLt x.2.2 y.2.2

/-- `heapq.heappop`: remove and return a least element of the queue
(`pqLt`-minimal; ties between fully equal tuples are indistinguishable). -/
def popMin : List PqElem → Option (PqElem × List PqElem)
  | [] => none
  | x :: xs =>
    match popMin xs with
    | none => some (x, [])
    | some (m, rest) => if pqLt m x then some (m, x :: rest) else some (x, xs)

/-- Dijkstra's mutable state in `dijkstra`: `distances`, `previous_nodes`,
`full_paths` and the priority queue.  `⊤` is `float('inf')`. -/
structure DijState where
  dist : List (ℕ × WithTop ℤ)
  prev : List (ℕ × Option ℕ)
  paths : List (ℕ × List ℕ)
  pq : List PqElem
deriving Repr

/-- `distances[u]` (every node is initialized, so the default is never
read on the code's own calls). -/
def getDist (st : DijState) (u : ℕ) : WithTop ℤ :=
  (alookup st.dist u).getD ⊤

/-- The neighbour-relaxation loop body of `dijkstra`: for `(v, w)` in
`network.nodes[u].links.items()`, with `d` the popped distance and `p` the
popped path. -/
def relax_all (net : Network) (d : ℤ) (u : ℕ) (p : List ℕ)
    (st : DijState) : DijState :=
  ((alookup net u).getD []).foldl
    (fun st2 vw =>
      let distance := d + vw.2
      if (distance : WithTop ℤ) < getDist st2 vw.1 then
        { dist := aset st2.dist vw.1 (distance : WithTop ℤ)
          prev := aset st2.prev vw.1 (some u)
          paths := aset st2.paths vw.1 (p ++ [vw.1])
          pq := st2.pq ++ [(distance, vw.1, p ++ [vw.1])] }
      else st2)
    st

/-- The single-neighbour body of the relaxation loop of `dijkstra`
(definitionally the function folded by `relax_all`). -/
def relaxStep (d : ℤ) (u : ℕ) (p : List ℕ) (st : DijState)
    (vw : ℕ × ℤ) : DijState :=
  let distance := d + vw.2
  if (distance : WithTop ℤ) < getDist st vw.1 then
    { dist := aset st.dist vw.1 (distance : WithTop ℤ)
      prev := aset st.prev vw.1 (some u)
      paths := aset st.paths vw.1 (p ++ [vw.1])
      pq := st.pq ++ [(distance, vw.1, p ++ [vw.1])] }
  else st

/-- The `while pq:` loop of `dijkstra`.  Each fuel unit is one pop; `none`
means the loop is still running after `fuel` pops (it always terminates on
real runs, but the embedding stays total). -/
def dij_loop (net : Network) : Nat → DijState → Option DijState
  | 0, st => if st.pq = [] then some st else none
  | fuel + 1, st =>
    match popMin st.pq with
    | none => some st
    | some (e, rest) =>
      if (e.1 : WithTop ℤ) > getDist st e.2.1 then
        dij_loop net fuel { st with pq := rest }
      else
        dij_loop net fuel (relax_all net e.1 e.2.1 e.2.2 { st with pq := rest })

/-- `dijkstra(network, start_id)`'s initialization: all distances infinite
except `distances[start_id] = 0`, `full_paths[start_id] = [start_id]`, and
the queue seeded with `(0, start_id, [start_id])`. -/
def dij_init (net : Network) (start_id : ℕ) : DijState :=
  { dist := aset (net.map (fun p => (p.1, (⊤ : WithTop ℤ)))) start_id
      ((0 : ℤ) : WithTop ℤ)
    prev := net.map (fun p => (p.1, (none : Option ℕ)))
    paths := aset (net.map (fun p => (p.1, ([] : List ℕ)))) start_id
      [start_id]
    pq := [((0 : ℤ), start_id, [start_id])] }

/-- `dijkstra(network, start_id)` bounded by `fuel` pops. -/
def dijkstra (fuel : Nat) (net : Network) (start_id : ℕ) :
    Option DijState :=
  dij_loop net fuel (dij_init net start_id)

/-- One routing-table entry of lsr.py: `(next_hop, cost, path-without-
destination)`. -/
abbrev LsrEntry := ℕ × WithTop ℤ × List ℕ

/-- The per-source table built by `build_routing_tables` from one Dijkstra
state: skip empty paths, take `path[1]` as next hop when the path has more
than one node (else the node itself), and store `path[:-1]`. -/
def table_for (node_id : ℕ) (st : DijState) : List (ℕ × LsrEntry) :=
  st.paths.foldl
    (fun rt dp =>
      if dp.2 = [] then rt
      else
        let next_hop :=
          match dp.2 with
          | _ :: h :: _ => h
          | _ => node_id
        rt ++ [(dp.1, (next_hop, getDist st dp.1, dp.2.dropLast))])
    []

/-- `build_routing_tables(network)`: one Dijkstra per node of the network.
`none` when some Dijkstra run exceeds its fuel. -/
def build_routing_tables (fuel : Nat) (net : Network) :
    Option (List (ℕ × List (ℕ × LsrEntry))) :=
  net.foldl
    (fun acc p =>
      match acc with
      | none => none
      | some rts =>
        match dijkstra fuel net p.1 with
        | none => none
        | some st => some (rts ++ [(p.1, table_for p.1 st)]))
    (some [])

/-- Rendering of a stored cost in a forwarded-message line (always finite
on lines the code prints, since unreachable destinations have no entry). -/
def costStr (c : WithTop ℤ) : String :=
  match c with
  | none => "inf"
  | some x => toString x

/-- One iteration of `forward_messages`: guarded lookups (`source_id in
routing_tables and dest_id in routing_tables[source_id]`), so unknown
sources and destinations give the unreachable line without raising. -/
def forward_message (rts : List (ℕ × List (ℕ × LsrEntry)))
    (source_id dest_id : ℕ) (message : String) : String :=
  match alookup2 rts source_id dest_id with
  | some e =>
    let cstr := costStr e.2.1
    let hops := String.intercalate " " (e.2.2.map toString)
    s!"from {source_id} to {dest_id} cost {cstr} hops {hops} message {message}"
  | none =>
    s!"from {source_id} to {dest_id} cost infinite hops unreachable message {message}"

/-- One change application from lsr.py's `main`: `cost == -999` deletes the
link in both directions after checking `node1_id in network.nodes and
node2_id in network.nodes[node1_id].links`; the two unguarded `del`
statements are `Option`-modelled (`none` = `KeyError`).  Any other cost
calls `add_link`. -/
def apply_change (net : Network) (node1 node2 : ℕ) (cost : ℤ) :
    Option Network :=
  if cost = -999 then
    if (alookup2 net node1 node2).isSome then
      match alookup net node1 with
      | none => none
      | some row1 =>
        let net1 := aset net node1 (apop row1 node2)
        match alookup net1 node2 with
        | none => none
        | some row2 =>
          if (alookup row2 node1).isSome then
            some (aset net1 node2 (apop row2 node1))
          else none
    else some net
  else some (add_link net node1 node2 cost)

end Lsr

/-! ## Walks through a topology (specification vocabulary)

Both engines' costs are compared through the walks of the underlying graph:
an entry cost is *realizable* when some walk has exactly that cost, and a
converged state is *closed* when no single-link relaxation can improve it.
-/

/-- ℤ of a node sequence read as a walk: `none` unless every consecutive
pair is a link of the topology (a single node is the empty walk, cost 0). -/
def wcost (topo : Topology) : List ℕ → Option ℤ
  | [] => none
  | [_] => some 0
  | a :: b :: rest =>
    match alookup2 topo a b, wcost topo (b :: rest) with
    | some c, some r => some (c + r)
    | _, _ => none

/-- `l` is a walk from `a` to `b` of total cost `c`. -/
def IsWalk (topo : Topology) (a b : ℕ) (l : List ℕ) (c : ℤ) :
    Prop :=
  l.head? = some a ∧ l.getLast? = some b ∧ wcost topo l = some c

namespace Dvr

/-- `t'` refines `t`: every entry survives with a cost that is no larger
(one relaxation step only creates entries or lowers costs). -/
def Dom (t t' : Tables) : Prop :=
  ∀ n d e, alookup2 t n d = some e →
    ∃ e', alookup2 t' n d = some e' ∧ e'.1 ≤ e.1

/-- `t` and `t'` have the same entries with the same costs (next hops may
differ). -/
def CostEq (t t' : Tables) : Prop :=
  ∀ n d, (alookup2 t n d).map Prod.fst = (alookup2 t' n d).map Prod.fst

/-- Every entry cost is the cost of an actual walk of the topology. -/
def Realizable (topo : Topology) (t : Tables) : Prop :=
  ∀ n d e, alookup2 t n d = some e → ∃ l, IsWalk topo n d l e.1

/-- Every per-node table has unique destination keys (a Python dict
invariant). -/
def RowsNodup (t : Tables) : Prop :=
  ∀ p ∈ t, (keysOf p.2).Nodup

/-- Every entry cost is non-negative. -/
def NonNegEntries (t : Tables) : Prop :=
  ∀ n d e, alookup2 t n d = some e → 0 ≤ e.1

/-- Every topology node has a self entry of cost 0 (any next hop). -/
def SelfZero (topo : Topology) (t : Tables) : Prop :=
  ∀ n ∈ keysOf topo, ∃ h, alookup2 t n n = some (0, h)

/-- Every topology node has the exact self entry `(0, n)`. -/
def SelfExact (topo : Topology) (t : Tables) : Prop :=
  ∀ n ∈ keysOf topo, alookup2 t n n = some (0, n)

/-- No single-link relaxation can improve `t`: for every link `(n, m)` of
cost `lc` and every destination `d` known to `m`, node `n` has an entry for
`d` of cost at most `lc + cost(m, d)`.  This is what holds when a full
sweep leaves the tables unchanged. -/
def Closure (topo : Topology) (t : Tables) : Prop :=
  ∀ n row, alookup topo n = some row → ∀ m lc, alookup row m = some lc →
    ∀ d e, alookup2 t m d = some e →
      ∃ e', alookup2 t n d = some e' ∧ e'.1 ≤ lc + e.1

/-- The running invariant of the distance-vector computation on a
well-formed non-negative topology: every entry cost is realized by a walk
and non-negative, per-node tables have unique keys, and every topology
node keeps a cost-0 self entry. -/
structure Inv (topo : Topology) (t : Tables) : Prop where
  real : Realizable topo t
  rows : RowsNodup t
  nonneg : NonNegEntries t
  selfz : SelfZero topo t

end Dvr

namespace Lsr

/-- The loop invariant of `dijkstra`:
* every queue element `(d, u, p)` carries an actual walk `p` from the
  source to `u` of cost `d`, and `d` is never below the recorded best
  distance of `u`;
* every finite recorded distance is the cost of an actual walk;
* every node with a finite recorded distance either still has a queue
  element at exactly that distance, or has already had all its links
  relaxed at it;
* the source's recorded distance never exceeds 0 and its recorded path
  stays `[s]` (on non-negative topologies it is never improved). -/
structure DijInv (net : Network) (s : ℕ) (st : DijState) : Prop where
  pq_walk : ∀ e ∈ st.pq, IsWalk net s e.2.1 e.2.2 e.1
  pq_ge : ∀ e ∈ st.pq, getDist st e.2.1 ≤ ((e.1 : ℤ) : WithTop ℤ)
  dist_real : ∀ u c, getDist st u = ((c : ℤ) : WithTop ℤ) →
    ∃ l, IsWalk net s u l c
  closure_q : ∀ u c, getDist st u = ((c : ℤ) : WithTop ℤ) →
    (∃ p, ((c, u, p) : PqElem) ∈ st.pq) ∨
    (∀ v w, alookup2 net u v = some w →
      getDist st v ≤ ((c + w : ℤ) : WithTop ℤ))
  start_le : getDist st s ≤ ((0 : ℤ) : WithTop ℤ)
  start_path : alookup st.paths s = some [s]
  paths_nodup : (keysOf st.paths).Nodup

/-- The invariant maintained while the popped node `u` (at final distance
`d`) has its links relaxed: like `DijInv`, except that the
closure-or-queued property is only guaranteed for nodes other than `u`,
whose recorded distance stays pinned at `d` throughout (no self links). -/
structure RelaxJ (net : Network) (s u : ℕ) (d : ℤ) (st : DijState) : Prop where
  pq_walk : ∀ e ∈ st.pq, IsWalk net s e.2.1 e.2.2 e.1
  pq_ge : ∀ e ∈ st.pq, getDist st e.2.1 ≤ ((e.1 : ℤ) : WithTop ℤ)
  dist_real : ∀ x c, getDist st x = ((c : ℤ) : WithTop ℤ) →
    ∃ l, IsWalk net s x l c
  closureE : ∀ x c, x ≠ u → getDist st x = ((c : ℤ) : WithTop ℤ) →
    (∃ p, ((c, x, p) : PqElem) ∈ st.pq) ∨
    (∀ v w, alookup2 net x v = some w →
      getDist st v ≤ ((c + w : ℤ) : WithTop ℤ))
  dist_u : getDist st u = ((d : ℤ) : WithTop ℤ)
  start_le : getDist st s ≤ ((0 : ℤ) : WithTop ℤ)
  start_path : alookup st.paths s = some [s]
  paths_nodup : (keysOf st.paths).Nodup

end Lsr

/-! ## Concrete inputs used by the claim theorems -/

/-- Topology file `1 2 1 / 1 3 1 / 2 4 1 / 3 4 1`: node 1 reaches node 4 at
cost 2 through either neighbour 2 or neighbour 3 (a perfect tie). -/
def topoC1 : Topology :=
  Dvr.read_topology [(1, 2, 1), (1, 3, 1), (2, 4, 1), (3, 4, 1)]

/-- The converged distance-vector tables for `topoC1`. -/
def tablesC1 : Dvr.Tables := (Dvr.dvrRun 10 topoC1).getD []

/-- Topology file `1 2 1 / 2 3 1 / 1 3 5` — the spec's concrete scenario
(`A`↦1, `B`↦2, `C`↦3). -/
def topoABC : Topology :=
  Dvr.read_topology [(1, 2, 1), (2, 3, 1), (1, 3, 5)]

/-- `topoABC` after the change `1 2 -999` (removing link `A-B`), applied by
the code's own change handler. -/
def topoC3 : Topology := (Dvr.apply_change topoABC 1 2 (-999)).getD []

/-- The converged distance-vector tables for `topoC3`. -/
def tablesC3 : Dvr.Tables := (Dvr.dvrRun 10 topoC3).getD []

/-- Topology file `1 2 1`: two nodes, one link. -/
def topoTwo : Topology := Dvr.read_topology [(1, 2, 1)]

/-- The converged distance-vector tables for `topoTwo`. -/
def tablesTwo : Dvr.Tables := (Dvr.dvrRun 10 topoTwo).getD []

/-- The link-state routing tables for `topoTwo`. -/
def rtsTwo : List (ℕ × List (ℕ × Lsr.LsrEntry)) :=
  (Lsr.build_routing_tables 30 topoTwo).getD []

/-- Topology file `1 2 0`: a single zero-cost link. -/
def topoC8 : Topology := Dvr.read_topology [(1, 2, 0)]

/-- The converged distance-vector tables for `topoC8`. -/
def tablesC8 : Dvr.Tables := (Dvr.dvrRun 10 topoC8).getD []

/-- Topology file `3 4 2 / 2 3 0`: a zero-cost link hanging off a paid
link. -/
def topoC10 : Topology := Dvr.read_topology [(3, 4, 2), (2, 3, 0)]

/-- The converged distance-vector tables for `topoC10` (the convergence
loop does exit here, yet the table it returns contains a next-hop cycle
between nodes 2 and 3 for destination 4). -/
def tablesC10 : Dvr.Tables := (Dvr.dvrRun 10 topoC10).getD []

/-- Topology file `1 2 0 / 3 4 1 / 4 5 1 / 2 3 0`: non-negative costs on
which the distance-vector convergence loop never exits. -/
def topoC9 : Topology :=
  Dvr.read_topology [(1, 2, 0), (3, 4, 1), (4, 5, 1), (2, 3, 0)]

/-- Table states after 0,1,…,5 sweeps on `topoC9`. -/
def c9t0 : Dvr.Tables := Dvr.init_tables topoC9

def c9t1 : Dvr.Tables := Dvr.sweepT topoC9 c9t0

def c9t2 : Dvr.Tables := Dvr.sweepT topoC9 c9t1

def c9t3 : Dvr.Tables := Dvr.sweepT topoC9 c9t2

def c9t4 : Dvr.Tables := Dvr.sweepT topoC9 c9t3

def c9t5 : Dvr.Tables := Dvr.sweepT topoC9 c9t4

def c9t6 : Dvr.Tables := Dvr.sweepT topoC9 c9t5

/-- A mid-convergence table state: node 1 already holds the entry `(2, 2)`
for destination 4 (equal cost, next hop 2), and neighbour 3 holds `(1, 4)`
for destination 4. -/
def tC1mid : Dvr.Tables := [(1, [(4, ((2 : ℤ), 2))]), (3, [(4, ((1 : ℤ), 4))])]

/-- Link file `1 3 1 / 1 2 2 / 3 4 2 / 2 4 1`: from source 1, node 4 is
reachable at cost 3 both through node 3 (found first) and through node 2
(the numerically smaller intermediate). -/
def netC5 : Lsr.Network :=
  Lsr.read_topology [(1, 3, 1), (1, 2, 2), (3, 4, 2), (2, 4, 1)]

/-- The Dijkstra state for source 1 on `netC5`. -/
def stC5 : Lsr.DijState := (Lsr.dijkstra 30 netC5 1).getD ⟨[], [], [], []⟩

/-- Witness topology for the engine-agreement theorem:
`1 2 2 / 2 3 3`. -/
def topoC4w : Topology := Dvr.read_topology [(1, 2, 2), (2, 3, 3)]

/-- Converged distance-vector tables on the witness topology. -/
def tablesC4w : Dvr.Tables := (Dvr.dvrRun 10 topoC4w).getD []

/-- Dijkstra state for source 1 on the witness topology. -/
def stC4w : Lsr.DijState := (Lsr.dijkstra 30 topoC4w 1).getD ⟨[], [], [], []⟩

/-! ## Association-list lemmas -/

theorem alookup_aset_self {α : Type} (l : List (ℕ × α)) (k : ℕ)
    (v : α) : alookup (aset l k v) k = some v := by
  induction l with
  | nil => simp [aset, alookup]
  | cons p rest ih =>
    by_cases h : p.1 = k
    · simp [aset, h, alookup]
    · simp [aset, h, alookup, ih]

theorem alookup_aset_ne {α : Type} (l : List (ℕ × α)) (k k' : ℕ)
    (v : α) (h : k' ≠ k) : alookup (aset l k v) k' = alookup l k' := by
  induction l with
  | nil => simp [aset, alookup, Ne.symm h]
  | cons p rest ih =>
    by_cases hp : p.1 = k
    · subst hp
      simp [aset, alookup, Ne.symm h]
    · simp [aset, hp, alookup, ih]

theorem alookup_apop_self {α : Type} (l : List (ℕ × α)) (k : ℕ) :
    alookup (apop l k) k = none := by
  induction l with
  | nil => simp [apop, alookup]
  | cons p rest ih =>
    by_cases h : p.1 = k
    · simpa [apop, h] using ih
    · simpa [apop, h, alookup] using ih

theorem alookup_apop_ne {α : Type} (l : List (ℕ × α)) (k k' : ℕ)
    (h : k' ≠ k) : alookup (apop l k) k' = alookup l k' := by
  induction l with
  | nil => simp [apop]
  | cons p rest ih =>
    rw [apop]
    by_cases hp : p.1 = k
    · have hne : ¬p.1 = k' := by
        rw [hp]
        exact Ne.symm h
      rw [if_pos hp, ih, alookup, if_neg hne]
    · rw [if_neg hp, alookup, alookup]
      by_cases hq : p.1 = k'
      · rw [if_pos hq, if_pos hq]
      · rw [if_neg hq, if_neg hq]
        exact ih

theorem apop_apop {α : Type} (l : List (ℕ × α)) (k : ℕ) :
    apop (apop l k) k = apop l k := by
  induction l with
  | nil => simp [apop]
  | cons p rest ih =>
    by_cases h : p.1 = k
    · simpa [apop, h] using ih
    · simpa [apop, h] using ih

theorem aset_lookup_eq {α : Type} {l : List (ℕ × α)} {k : ℕ}
    {v : α} (h : alookup l k = some v) : aset l k v = l := by
  induction l with
  | nil => simp [alookup] at h
  | cons p rest ih =>
    by_cases hp : p.1 = k
    · have h2 : p.2 = v := by simpa [alookup, hp] using h
      cases p with
      | mk a b =>
        simp only at hp h2
        subst hp
        subst h2
        simp [aset]
    · have h2 : alookup rest k = some v := by simpa [alookup, hp] using h
      simp [aset, hp, ih h2]

theorem alookup_append_none {α : Type} {l : List (ℕ × α)}
    (l2 : List (ℕ × α)) {k : ℕ} (h : alookup l k = none) :
    alookup (l ++ l2) k = alookup l2 k := by
  induction l with
  | nil => simp
  | cons p rest ih =>
    by_cases hp : p.1 = k
    · simp [alookup, hp] at h
    · simp [alookup, hp] at h ⊢
      exact ih h

theorem alookup_append_some {α : Type} {l : List (ℕ × α)}
    (l2 : List (ℕ × α)) {k : ℕ} {v : α} (h : alookup l k = some v) :
    alookup (l ++ l2) k = some v := by
  induction l with
  | nil => simp [alookup] at h
  | cons p rest ih =>
    by_cases hp : p.1 = k
    · simp [alookup, hp] at h ⊢
      exact h
    · simp [alookup, hp] at h ⊢
      exact ih h

theorem keysOf_cons {α : Type} (p : ℕ × α) (rest : List (ℕ × α)) :
    keysOf (p :: rest) = p.1 :: keysOf rest := rfl

theorem alookup_mem {α : Type} {l : List (ℕ × α)} {k : ℕ} {v : α}
    (h : alookup l k = some v) : (k, v) ∈ l := by
  induction l with
  | nil => simp [alookup] at h
  | cons p rest ih =>
    by_cases hp : p.1 = k
    · have h2 : p.2 = v := by simpa [alookup, hp] using h
      have hpv : p = (k, v) := by
        cases p
        simp_all
      rw [← hpv]
      exact List.mem_cons_self _ _
    · have h2 : alookup rest k = some v := by simpa [alookup, hp] using h
      exact List.mem_cons_of_mem _ (ih h2)

theorem mem_keys_of_mem {α : Type} {l : List (ℕ × α)} {k : ℕ}
    {v : α} (h : (k, v) ∈ l) : k ∈ keysOf l :=
  List.mem_map.mpr ⟨(k, v), h, rfl⟩

theorem mem_keys_of_alookup {α : Type} {l : List (ℕ × α)} {k : ℕ}
    {v : α} (h : alookup l k = some v) : k ∈ keysOf l :=
  mem_keys_of_mem (alookup_mem h)

theorem mem_alookup {α : Type} {l : List (ℕ × α)} {k : ℕ} {v : α}
    (nd : (keysOf l).Nodup) (h : (k, v) ∈ l) : alookup l k = some v := by
  induction l with
  | nil => simp at h
  | cons p rest ih =>
    rw [keysOf_cons, List.nodup_cons] at nd
    rcases List.mem_cons.mp h with h1 | h2
    · subst h1
      simp [alookup]
    · have hne : p.1 ≠ k := by
        intro he
        exact nd.1 (he ▸ mem_keys_of_mem h2)
      simp only [alookup, if_neg hne]
      exact ih nd.2 h2

theorem alookup_none_of_not_mem_keys {α : Type} {l : List (ℕ × α)}
    {k : ℕ} (h : k ∉ keysOf l) : alookup l k = none := by
  induction l with
  | nil => simp [alookup]
  | cons p rest ih =>
    rw [keysOf_cons, List.mem_cons] at h
    push_neg at h
    simp [alookup, Ne.symm h.1, ih h.2]

theorem alookup2_of_lookup {α : Type} {t : List (ℕ × List (ℕ × α))}
    {a : ℕ} {row : List (ℕ × α)} (h : alookup t a = some row)
    (b : ℕ) : alookup2 t a b = alookup row b := by
  simp only [alookup2, h]

theorem alookup2_of_none {α : Type} {t : List (ℕ × List (ℕ × α))}
    {a : ℕ} (h : alookup t a = none) (b : ℕ) :
    alookup2 t a b = none := by
  simp only [alookup2, h]

theorem alookup2_some_elim {α : Type} {t : List (ℕ × List (ℕ × α))}
    {a b : ℕ} {v : α} (h : alookup2 t a b = some v) :
    ∃ row, alookup t a = some row ∧ alookup row b = some v := by
  rcases ho : alookup t a with _ | row
  · rw [alookup2_of_none ho] at h
    exact absurd h (by simp)
  · exact ⟨row, rfl, by rwa [alookup2_of_lookup ho] at h⟩

theorem alookup_map_key {α β : Type} (g : ℕ → β) :
    ∀ (l : List (ℕ × α)) (k : ℕ),
    alookup (l.map (fun p => (p.1, g p.1))) k =
      if k ∈ keysOf l then some (g k) else none := by
  intro l
  induction l with
  | nil => intro k; simp [alookup, keysOf]
  | cons p rest ih =>
    intro k
    by_cases hp : p.1 = k
    · subst hp
      simp [alookup, keysOf]
    · rw [List.map_cons, alookup, if_neg hp, ih, keysOf_cons]
      by_cases hk : k ∈ keysOf rest
      · rw [if_pos hk, if_pos (List.mem_cons_of_mem _ hk)]
      · rw [if_neg hk, if_neg]
        intro hc
        rcases List.mem_cons.mp hc with h1 | h2
        · exact hp h1.symm
        · exact hk h2

theorem keysOf_aset {α : Type} :
    ∀ (l : List (ℕ × α)) (k : ℕ) (v : α),
    keysOf (aset l k v) =
      if k ∈ keysOf l then keysOf l else keysOf l ++ [k] := by
  intro l
  induction l with
  | nil => intro k v; simp [aset, keysOf]
  | cons p rest ih =>
    intro k v
    by_cases hp : p.1 = k
    · subst hp
      simp [aset, keysOf_cons]
    · rw [aset, if_neg hp, keysOf_cons, keysOf_cons, ih]
      by_cases hk : k ∈ keysOf rest
      · rw [if_pos hk, if_pos (List.mem_cons_of_mem _ hk)]
      · rw [if_neg hk, if_neg]
        · simp
        · intro hc
          rcases List.mem_cons.mp hc with h1 | h2
          · exact hp h1.symm
          · exact hk h2

theorem keysOf_aset_nodup {α : Type} {l : List (ℕ × α)} (k : ℕ) (v : α)
    (h : (keysOf l).Nodup) : (keysOf (aset l k v)).Nodup := by
  rw [keysOf_aset]
  by_cases hk : k ∈ keysOf l
  · rwa [if_pos hk]
  · rw [if_neg hk]
    simpa [List.nodup_append] using ⟨h, hk⟩

theorem mem_aset {α : Type} :
    ∀ {l : List (ℕ × α)} {k : ℕ} {v : α} {p : ℕ × α},
    p ∈ aset l k v → p ∈ l ∨ p = (k, v) := by
  intro l
  induction l with
  | nil =>
    intro k v p hp
    simp [aset] at hp
    exact Or.inr hp
  | cons q rest ih =>
    intro k v p hp
    by_cases hq : q.1 = k
    · rw [aset, if_pos hq] at hp
      rcases List.mem_cons.mp hp with h1 | h2
      · exact Or.inr h1
      · exact Or.inl (List.mem_cons_of_mem _ h2)
    · rw [aset, if_neg hq] at hp
      rcases List.mem_cons.mp hp with h1 | h2
      · exact Or.inl (h1 ▸ List.mem_cons_self _ _)
      · rcases ih h2 with h3 | h3
        · exact Or.inl (List.mem_cons_of_mem _ h3)
        · exact Or.inr h3

theorem alookup2_aset2_self {α : Type} (t : List (ℕ × List (ℕ × α)))
    (a b : ℕ) (v : α) : alookup2 (aset2 t a b v) a b = some v := by
  rw [aset2, alookup2_of_lookup (alookup_aset_self _ _ _), alookup_aset_self]

theorem alookup2_aset2_ne {α : Type} (t : List (ℕ × List (ℕ × α)))
    (a b : ℕ) (v : α) (n d : ℕ) (h : ¬(n = a ∧ d = b)) :
    alookup2 (aset2 t a b v) n d = alookup2 t n d := by
  by_cases hn : n = a
  · subst hn
    have hd : d ≠ b := fun hdb => h ⟨rfl, hdb⟩
    rw [aset2, alookup2_of_lookup (alookup_aset_self _ _ _),
      alookup_aset_ne _ _ _ _ hd]
    rcases ho : alookup t n with _ | row
    · rw [alookup2_of_none ho, Option.getD_none, alookup]
    · rw [alookup2_of_lookup ho, Option.getD_some]
  · rw [aset2, alookup2, alookup_aset_ne _ _ _ _ hn, alookup2]

/-! ## Walk lemmas -/

theorem wcost_cons_intro {topo : Topology} {a b : ℕ} {w r : ℤ}
    {rest : List ℕ} (h1 : alookup2 topo a b = some w)
    (h2 : wcost topo (b :: rest) = some r) :
    wcost topo (a :: b :: rest) = some (w + r) := by
  simp only [wcost, h1, h2]

theorem wcost_cons_elim {topo : Topology} {a b : ℕ} {c : ℤ}
    {rest : List ℕ} (h : wcost topo (a :: b :: rest) = some c) :
    ∃ w r, alookup2 topo a b = some w ∧ wcost topo (b :: rest) = some r ∧
      c = w + r := by
  rw [wcost] at h
  rcases h1 : alookup2 topo a b with _ | w <;> rw [h1] at h
  · exact absurd h (by simp)
  · rcases h2 : wcost topo (b :: rest) with _ | r <;> rw [h2] at h
    · exact absurd h (by simp)
    · exact ⟨w, r, rfl, rfl, by injection h with h3; omega⟩

theorem wcost_nonneg {topo : Topology} (nn : TopoNonNeg topo) :
    ∀ (l : List ℕ) (c : ℤ), wcost topo l = some c → 0 ≤ c := by
  intro l
  induction l with
  | nil => intro c h; simp [wcost] at h
  | cons a rest ih =>
    intro c h
    cases rest with
    | nil =>
      have : c = 0 := by
        rw [wcost] at h
        injection h with h1
        omega
      omega
    | cons b rest2 =>
      obtain ⟨w, r, h1, h2, h3⟩ := wcost_cons_elim h
      obtain ⟨row, hrow, hb⟩ := alookup2_some_elim h1
      have hw : 0 ≤ w := nn (a, row) (alookup_mem hrow) (b, w) (alookup_mem hb)
      have hr : 0 ≤ r := ih r h2
      omega

theorem isWalk_single (topo : Topology) (a : ℕ) : IsWalk topo a a [a] 0 :=
  ⟨rfl, rfl, rfl⟩

theorem isWalk_cons {topo : Topology} {a b d : ℕ} {l : List ℕ} {c w : ℤ}
    (hw : alookup2 topo a b = some w) (h : IsWalk topo b d l c) :
    IsWalk topo a d (a :: l) (w + c) := by
  obtain ⟨hh, hl, hc⟩ := h
  cases l with
  | nil => simp at hh
  | cons b0 rest =>
    have hb : b0 = b := by simpa using hh
    subst hb
    refine ⟨rfl, ?_, wcost_cons_intro hw hc⟩
    simpa [List.getLast?_cons_cons] using hl

theorem isWalk_snoc {topo : Topology} :
    ∀ (l : List ℕ) {s u v : ℕ} {c w : ℤ}, IsWalk topo s u l c →
    alookup2 topo u v = some w → IsWalk topo s v (l ++ [v]) (c + w) := by
  intro l
  induction l with
  | nil =>
    intro s u v c w h hw
    obtain ⟨hh, _, _⟩ := h
    simp at hh
  | cons a rest ih =>
    intro s u v c w h hw
    obtain ⟨hh, hl, hc⟩ := h
    have hs : a = s := by simpa using hh
    subst hs
    cases rest with
    | nil =>
      have hu : a = u := by simpa using hl
      subst hu
      have hc0 : c = 0 := by
        rw [wcost] at hc
        injection hc with h1
        omega
      subst hc0
      refine ⟨rfl, rfl, ?_⟩
      have := wcost_cons_intro hw
        (show wcost topo [v] = some 0 from rfl)
      rw [List.cons_append, List.nil_append, this]
      congr 1
      omega
    | cons b rest2 =>
      obtain ⟨w0, r, h1, h2, h3⟩ := wcost_cons_elim hc
      have htail : IsWalk topo b u (b :: rest2) r :=
        ⟨rfl, by simpa [List.getLast?_cons_cons] using hl, h2⟩
      have hstep := ih htail hw
      have h4 := isWalk_cons h1 hstep
      have h5 : w0 + (r + w) = c + w := by omega
      rw [List.cons_append]
      exact h5 ▸ h4

theorem walk_mem_keys {topo : Topology} (wf : TopoWF topo) {s d : ℕ}
    {l : List ℕ} {c : ℤ} (h : IsWalk topo s d l c) (hs : s ∈ keysOf topo) :
    d ∈ keysOf topo := by
  induction l generalizing s c with
  | nil =>
    obtain ⟨hh, _, _⟩ := h
    simp at hh
  | cons a rest ih =>
    obtain ⟨hh, hl, hc⟩ := h
    have ha : a = s := by simpa using hh
    subst ha
    cases rest with
    | nil =>
      have : a = d := by simpa using hl
      subst this
      exact hs
    | cons b rest2 =>
      obtain ⟨w, r, h1, h2, h3⟩ := wcost_cons_elim hc
      obtain ⟨row, hrow, hb⟩ := alookup2_some_elim h1
      have hsymm := wf.symm (a, row) (alookup_mem hrow) (b, w) (alookup_mem hb)
      obtain ⟨rowb, hrowb, _⟩ := alookup2_some_elim hsymm
      have hbk : b ∈ keysOf topo := mem_keys_of_alookup hrowb
      exact ih ⟨rfl, by simpa [List.getLast?_cons_cons] using hl, h2⟩ hbk

/-! ## Distance-vector relaxation analysis -/

theorem relaxOne_spec (node neighbor : ℕ) (lc : ℤ) (acc : Dvr.Tables × Bool)
    (de : ℕ × Dvr.Entry) :
    Dvr.relaxOne node neighbor lc acc de = acc ∨
    (Dvr.relaxOne node neighbor lc acc de =
        (aset2 acc.1 node de.1 (lc + de.2.1, neighbor), true) ∧
      (alookup2 acc.1 node de.1 = none ∨
        ∃ e, alookup2 acc.1 node de.1 = some e ∧ lc + de.2.1 ≤ e.1)) := by
  rcases h : alookup2 acc.1 node de.1 with _ | e
  · right
    refine ⟨?_, Or.inl rfl⟩
    simp only [Dvr.relaxOne, h]
  · by_cases h1 : lc + de.2.1 < e.1
    · right
      refine ⟨?_, Or.inr ⟨e, rfl, le_of_lt h1⟩⟩
      simp only [Dvr.relaxOne, h, if_pos h1]
    · by_cases h2 : lc + de.2.1 = e.1 ∧ neighbor < de.2.2
      · right
        refine ⟨?_, Or.inr ⟨e, rfl, le_of_eq h2.1⟩⟩
        simp only [Dvr.relaxOne, h, if_neg h1, if_pos h2]
      · left
        simp only [Dvr.relaxOne, h, if_neg h1, if_neg h2]

theorem dom_refl (t : Dvr.Tables) : Dvr.Dom t t :=
  fun _ _ e h => ⟨e, h, le_refl _⟩

theorem dom_trans {a b c : Dvr.Tables} (h1 : Dvr.Dom a b) (h2 : Dvr.Dom b c) :
    Dvr.Dom a c := by
  intro n d e h
  obtain ⟨e1, he1, l1⟩ := h1 n d e h
  obtain ⟨e2, he2, l2⟩ := h2 n d e1 he1
  exact ⟨e2, he2, le_trans l2 l1⟩

theorem costEq_refl (t : Dvr.Tables) : Dvr.CostEq t t := fun _ _ => rfl

theorem dom_sandwich {T a b c : Dvr.Tables} (h1 : Dvr.Dom a b)
    (h2 : Dvr.Dom b c) (ha : Dvr.CostEq T a) (hc : Dvr.CostEq T c) :
    Dvr.CostEq T b := by
  intro n d
  have e1 := ha n d
  have e2 := hc n d
  rcases hT : alookup2 T n d with _ | eT <;> rw [hT] at e1 e2
  · rcases hb : alookup2 b n d with _ | eb
    · simp
    · obtain ⟨ec, hec, _⟩ := h2 n d eb hb
      rw [hec] at e2
      exact absurd e2 (by simp)
  · rcases ha2 : alookup2 a n d with _ | ea
    · rw [ha2] at e1
      exact absurd e1 (by simp)
    · rw [ha2] at e1
      obtain ⟨eb, heb, lb⟩ := h1 n d ea ha2
      obtain ⟨ec, hec, lc2⟩ := h2 n d eb heb
      rcases hc2 : alookup2 c n d with _ | ec2
      · rw [hc2] at e2
        exact absurd e2 (by simp)
      · rw [hc2] at e2
        have hcc : ec = ec2 := by
          rw [hec] at hc2
          injection hc2
        subst hcc
        rw [heb]
        simp only [Option.map_some'] at e1 e2 ⊢
        have q1 : eT.1 = ea.1 := by injection e1
        have q2 : eT.1 = ec.1 := by injection e2
        have q3 : eb.1 = eT.1 := by omega
        rw [q3]

theorem relaxOne_extract {T : Dvr.Tables} {node neighbor : ℕ} {lc : ℤ}
    {acc : Dvr.Tables × Bool} {de : ℕ × Dvr.Entry}
    (h1 : Dvr.CostEq T acc.1)
    (h2 : Dvr.CostEq T (Dvr.relaxOne node neighbor lc acc de).1) :
    ∃ e, alookup2 T node de.1 = some e ∧ e.1 ≤ lc + de.2.1 := by
  rcases hl : alookup2 acc.1 node de.1 with _ | e0
  · have hw : (Dvr.relaxOne node neighbor lc acc de).1 =
        aset2 acc.1 node de.1 (lc + de.2.1, neighbor) := by
      simp only [Dvr.relaxOne, hl]
    have hTa := h1 node de.1
    rw [hl] at hTa
    have hTb := h2 node de.1
    rw [hw, alookup2_aset2_self] at hTb
    rcases hT : alookup2 T node de.1 with _ | e <;> rw [hT] at hTa hTb
    · exact absurd hTb (by simp)
    · exact absurd hTa (by simp)
  · by_cases hlt : lc + de.2.1 < e0.1
    · have hw : (Dvr.relaxOne node neighbor lc acc de).1 =
          aset2 acc.1 node de.1 (lc + de.2.1, neighbor) := by
        simp only [Dvr.relaxOne, hl, if_pos hlt]
      have hTa := h1 node de.1
      rw [hl] at hTa
      have hTb := h2 node de.1
      rw [hw, alookup2_aset2_self] at hTb
      rcases hT : alookup2 T node de.1 with _ | e <;> rw [hT] at hTa hTb
      · exact absurd hTa (by simp)
      · simp only [Option.map_some'] at hTa hTb
        have q1 : e.1 = e0.1 := by injection hTa
        have q2 : e.1 = lc + de.2.1 := by injection hTb
        omega
    · have hTa := h1 node de.1
      rw [hl] at hTa
      rcases hT : alookup2 T node de.1 with _ | e <;> rw [hT] at hTa
      · exact absurd hTa (by simp)
      · simp only [Option.map_some'] at hTa
        have q1 : e.1 = e0.1 := by injection hTa
        exact ⟨e, rfl, by omega⟩

theorem foldl_dom {β : Type} (f : Dvr.Tables × Bool → β → Dvr.Tables × Bool)
    (hf : ∀ acc x, Dvr.Dom acc.1 (f acc x).1) :
    ∀ (l : List β) (acc : Dvr.Tables × Bool), Dvr.Dom acc.1 (l.foldl f acc).1 := by
  intro l
  induction l with
  | nil => intro acc; exact dom_refl _
  | cons x xs ih =>
    intro acc
    exact dom_trans (hf acc x) (ih (f acc x))

theorem relaxOne_dom (node neighbor : ℕ) (lc : ℤ) (acc : Dvr.Tables × Bool)
    (de : ℕ × Dvr.Entry) :
    Dvr.Dom acc.1 (Dvr.relaxOne node neighbor lc acc de).1 := by
  rcases relaxOne_spec node neighbor lc acc de with h | ⟨h, hcond⟩
  · rw [h]
    exact dom_refl _
  · rw [h]
    intro n d e he
    by_cases hnd : n = node ∧ d = de.1
    · obtain ⟨rfl, rfl⟩ := hnd
      refine ⟨(lc + de.2.1, neighbor), alookup2_aset2_self _ _ _ _, ?_⟩
      rcases hcond with hno | ⟨e0, he0, hle⟩
      · rw [hno] at he
        cases he
      · rw [he0] at he
        injection he with q
        subst q
        exact hle
    · rw [show alookup2 (aset2 acc.1 node de.1 (lc + de.2.1, neighbor), true).1 n d =
          alookup2 acc.1 n d from alookup2_aset2_ne _ _ _ _ _ _ hnd]
      exact ⟨e, he, le_refl _⟩

theorem update_dom (t : Dvr.Tables) (node : ℕ) (nbrs : Row) :
    Dvr.Dom t (Dvr.update_routing_table t node nbrs).1 := by
  have step : ∀ (acc : Dvr.Tables × Bool) (nb : ℕ × ℤ),
      Dvr.Dom acc.1 (((alookup acc.1 nb.1).getD []).foldl
        (Dvr.relaxOne node nb.1 nb.2) acc).1 :=
    fun acc nb => foldl_dom _ (relaxOne_dom node nb.1 nb.2) _ acc
  exact foldl_dom _ step nbrs (t, false)

theorem sweep_dom (topo : Topology) (t : Dvr.Tables) :
    Dvr.Dom t (Dvr.sweepT topo t) := by
  have step : ∀ (acc : Dvr.Tables × Bool) (p : ℕ × Row),
      Dvr.Dom acc.1 ((fun acc2 (p2 : ℕ × Row) =>
        let r := Dvr.update_routing_table acc2.1 p2.1 p2.2
        ((r.1, acc2.2 || r.2) : Dvr.Tables × Bool)) acc p).1 :=
    fun acc p => update_dom acc.1 p.1 p.2
  exact foldl_dom _ step topo (t, false)

/-! ## The fixpoint sweep yields relaxation closure -/

theorem inner_extract {T : Dvr.Tables} {node neighbor : ℕ} {lc : ℤ} :
    ∀ (snapshot : List (ℕ × Dvr.Entry)) (acc : Dvr.Tables × Bool),
    Dvr.CostEq T acc.1 →
    Dvr.CostEq T (snapshot.foldl (Dvr.relaxOne node neighbor lc) acc).1 →
    ∀ de ∈ snapshot, ∃ e, alookup2 T node de.1 = some e ∧
      e.1 ≤ lc + de.2.1 := by
  intro snapshot
  induction snapshot with
  | nil =>
    intro acc _ _ de hde
    simp at hde
  | cons de0 rest ih =>
    intro acc hacc hfin de hde
    have hmid : Dvr.CostEq T (Dvr.relaxOne node neighbor lc acc de0).1 :=
      dom_sandwich (relaxOne_dom node neighbor lc acc de0)
        (foldl_dom _ (relaxOne_dom node neighbor lc) rest _) hacc hfin
    rcases List.mem_cons.mp hde with rfl | hrest
    · exact relaxOne_extract hacc hmid
    · exact ih _ hmid hfin de hrest

theorem update_extract {T : Dvr.Tables} {node : ℕ} :
    ∀ (nbrs : Row) (acc : Dvr.Tables × Bool),
    Dvr.CostEq T acc.1 →
    Dvr.CostEq T (nbrs.foldl (fun acc2 nb =>
      ((alookup acc2.1 nb.1).getD []).foldl
        (Dvr.relaxOne node nb.1 nb.2) acc2) acc).1 →
    ∀ nb ∈ nbrs, ∀ d e, alookup2 T nb.1 d = some e →
      ∃ e', alookup2 T node d = some e' ∧ e'.1 ≤ nb.2 + e.1 := by
  intro nbrs
  induction nbrs with
  | nil =>
    intro acc _ _ nb hnb
    simp at hnb
  | cons nb0 rest ih =>
    intro acc hacc hfin nb hnb d e he
    have hstep : ∀ (acc2 : Dvr.Tables × Bool) (nb2 : ℕ × ℤ),
        Dvr.Dom acc2.1 (((alookup acc2.1 nb2.1).getD []).foldl
          (Dvr.relaxOne node nb2.1 nb2.2) acc2).1 :=
      fun acc2 nb2 => foldl_dom _ (relaxOne_dom node nb2.1 nb2.2) _ acc2
    have hmid : Dvr.CostEq T (((alookup acc.1 nb0.1).getD []).foldl
        (Dvr.relaxOne node nb0.1 nb0.2) acc).1 :=
      dom_sandwich (hstep acc nb0) (foldl_dom _ hstep rest _) hacc hfin
    rcases List.mem_cons.mp hnb with rfl | hrest
    · -- translate the T-entry into a snapshot membership
      have hmap := hacc nb.1 d
      rw [he] at hmap
      rcases hsnap : alookup2 acc.1 nb.1 d with _ | e0
      · rw [hsnap] at hmap
        exact absurd hmap (by simp)
      · rw [hsnap] at hmap
        simp only [Option.map_some'] at hmap
        have hq : e.1 = e0.1 := by injection hmap
        obtain ⟨row, hrow, hin⟩ := alookup2_some_elim hsnap
        have hsnapl : (alookup acc.1 nb.1).getD [] = row := by
          rw [hrow, Option.getD_some]
        obtain ⟨e', he', hle⟩ := inner_extract ((alookup acc.1 nb.1).getD [])
          acc hacc hmid (d, e0) (by rw [hsnapl]; exact alookup_mem hin)
        have hle2 : e'.1 ≤ nb.2 + e0.1 := by simpa using hle
        exact ⟨e', he', by omega⟩
    · exact ih _ hmid hfin nb hrest d e he

theorem sweep_extract {topo : Topology} {T : Dvr.Tables}
    (hfix : Dvr.sweepT topo T = T) : Dvr.Closure topo T := by
  have main : ∀ (l : List (ℕ × Row)) (acc : Dvr.Tables × Bool),
      Dvr.CostEq T acc.1 →
      Dvr.CostEq T ((l.foldl (fun acc2 (p2 : ℕ × Row) =>
        let r := Dvr.update_routing_table acc2.1 p2.1 p2.2
        ((r.1, acc2.2 || r.2) : Dvr.Tables × Bool)) acc)).1 →
      ∀ p ∈ l, ∀ nb ∈ p.2, ∀ d e, alookup2 T nb.1 d = some e →
        ∃ e', alookup2 T p.1 d = some e' ∧ e'.1 ≤ nb.2 + e.1 := by
    intro l
    induction l with
    | nil =>
      intro acc _ _ p hp
      simp at hp
    | cons p0 rest ih =>
      intro acc hacc hfin p hp nb hnb d e he
      rw [List.foldl_cons] at hfin
      have hstep : ∀ (acc2 : Dvr.Tables × Bool) (p2 : ℕ × Row),
          Dvr.Dom acc2.1 ((fun acc3 (p3 : ℕ × Row) =>
            let r := Dvr.update_routing_table acc3.1 p3.1 p3.2
            ((r.1, acc3.2 || r.2) : Dvr.Tables × Bool)) acc2 p2).1 :=
        fun acc2 p2 => update_dom acc2.1 p2.1 p2.2
      have hmid := dom_sandwich (hstep acc p0) (foldl_dom _ hstep rest _)
        hacc hfin
      rcases List.mem_cons.mp hp with rfl | hrest
      · exact update_extract p.2 (acc.1, false) hacc hmid nb hnb d e he
      · exact ih _ hmid hfin p hrest nb hnb d e he
  intro n row hrow m lc hm d e he
  have hCE : Dvr.CostEq T (Dvr.sweepF topo T).1 := by
    rw [show (Dvr.sweepF topo T).1 = Dvr.sweepT topo T from rfl, hfix]
    exact costEq_refl T
  exact main topo (T, false) (costEq_refl T) hCE (n, row) (alookup_mem hrow)
    (m, lc) (alookup_mem hm) d e he

/-! ## The distance-vector running invariant -/

theorem relaxOne_inv {topo : Topology} (nn : TopoNonNeg topo)
    {node neighbor : ℕ} {lc : ℤ}
    (hedge : alookup2 topo node neighbor = some lc)
    {acc : Dvr.Tables × Bool} (hI : Dvr.Inv topo acc.1)
    {de : ℕ × Dvr.Entry}
    (hde_w : ∃ l, IsWalk topo neighbor de.1 l de.2.1)
    (hde_nn : 0 ≤ de.2.1) :
    Dvr.Inv topo (Dvr.relaxOne node neighbor lc acc de).1 := by
  have hlc : 0 ≤ lc := by
    obtain ⟨row, hrow, hb⟩ := alookup2_some_elim hedge
    exact nn (node, row) (alookup_mem hrow) (neighbor, lc) (alookup_mem hb)
  rcases relaxOne_spec node neighbor lc acc de with h | ⟨h, hcond⟩
  · rw [h]
    exact hI
  · rw [h]
    constructor
    · intro n d e he
      by_cases hnd : n = node ∧ d = de.1
      · obtain ⟨rfl, rfl⟩ := hnd
        rw [show alookup2 (aset2 acc.1 n de.1 (lc + de.2.1, neighbor), true).1
            n de.1 = some (lc + de.2.1, neighbor)
          from alookup2_aset2_self _ _ _ _] at he
        obtain ⟨l, hl⟩ := hde_w
        have hwalk := isWalk_cons hedge hl
        injection he with hq
        rw [← hq]
        exact ⟨n :: l, hwalk⟩
      · rw [show alookup2 (aset2 acc.1 node de.1 (lc + de.2.1, neighbor),
            true).1 n d = alookup2 acc.1 n d
          from alookup2_aset2_ne _ _ _ _ _ _ hnd] at he
        exact hI.real n d e he
    · intro p hp
      rcases mem_aset hp with h1 | h1
      · exact hI.rows p h1
      · rw [h1]
        show (keysOf (aset ((alookup acc.1 node).getD []) de.1
          (lc + de.2.1, neighbor))).Nodup
        rcases hrow : alookup acc.1 node with _ | row
        · simp [aset, keysOf]
        · rw [Option.getD_some]
          exact keysOf_aset_nodup _ _
            (hI.rows (node, row) (alookup_mem hrow))
    · intro n d e he
      by_cases hnd : n = node ∧ d = de.1
      · obtain ⟨rfl, rfl⟩ := hnd
        rw [show alookup2 (aset2 acc.1 n de.1 (lc + de.2.1, neighbor), true).1
            n de.1 = some (lc + de.2.1, neighbor)
          from alookup2_aset2_self _ _ _ _] at he
        injection he with hq
        rw [← hq]
        omega
      · rw [show alookup2 (aset2 acc.1 node de.1 (lc + de.2.1, neighbor),
            true).1 n d = alookup2 acc.1 n d
          from alookup2_aset2_ne _ _ _ _ _ _ hnd] at he
        exact hI.nonneg n d e he
    · intro n hn
      obtain ⟨h0, hself⟩ := hI.selfz n hn
      by_cases hnd : n = node ∧ n = de.1
      · obtain ⟨rfl, hd⟩ := hnd
        rcases hcond with hno | ⟨e0, he0, hle⟩
        · rw [← hd] at hno
          rw [hself] at hno
          cases hno
        · rw [← hd] at he0
          rw [hself] at he0
          injection he0 with hq
          have hzero : lc + de.2.1 = 0 := by
            have he01 : e0.1 = 0 := by rw [← hq]
            omega
          refine ⟨neighbor, ?_⟩
          show alookup2 (aset2 acc.1 n de.1 (lc + de.2.1, neighbor)) n n =
            some (0, neighbor)
          rw [← hd, alookup2_aset2_self, hzero]
      · refine ⟨h0, ?_⟩
        rw [show alookup2 (aset2 acc.1 node de.1 (lc + de.2.1, neighbor),
            true).1 n n = alookup2 acc.1 n n
          from alookup2_aset2_ne _ _ _ _ _ _ hnd]
        exact hself

theorem foldl_pres {β : Type} (P : Dvr.Tables × Bool → Prop)
    (f : Dvr.Tables × Bool → β → Dvr.Tables × Bool) :
    ∀ (l : List β) (acc : Dvr.Tables × Bool),
    (∀ acc2 x, x ∈ l → P acc2 → P (f acc2 x)) → P acc → P (l.foldl f acc) := by
  intro l
  induction l with
  | nil =>
    intro acc _ h
    exact h
  | cons x xs ih =>
    intro acc hstep h
    exact ih (f acc x)
      (fun acc2 y hy => hstep acc2 y (List.mem_cons_of_mem _ hy))
      (hstep acc x (List.mem_cons_self _ _) h)

theorem update_inv {topo : Topology} (wf : TopoWF topo) (nn : TopoNonNeg topo)
    {node : ℕ} {nbrs : Row} (hmem : (node, nbrs) ∈ topo) :
    ∀ t : Dvr.Tables, Dvr.Inv topo t →
    Dvr.Inv topo (Dvr.update_routing_table t node nbrs).1 := by
  intro t hI
  refine foldl_pres (fun acc => Dvr.Inv topo acc.1) _ nbrs (t, false) ?_ hI
  intro acc2 nb hnb hI2
  have hedge : alookup2 topo node nb.1 = some nb.2 := by
    rw [alookup2_of_lookup (mem_alookup wf.keys_nodup hmem)]
    exact mem_alookup (wf.rows_nodup _ hmem) hnb
  refine foldl_pres (fun acc => Dvr.Inv topo acc.1) _ _ acc2 ?_ hI2
  intro acc3 de hde hI3
  have hfacts : (∃ l, IsWalk topo nb.1 de.1 l de.2.1) ∧ 0 ≤ de.2.1 := by
    rcases hrow : alookup acc2.1 nb.1 with _ | row
    · rw [hrow] at hde
      simp at hde
    · rw [hrow] at hde
      rw [Option.getD_some] at hde
      have hlook : alookup2 acc2.1 nb.1 de.1 = some de.2 := by
        rw [alookup2_of_lookup hrow]
        exact mem_alookup (hI2.rows (nb.1, row) (alookup_mem hrow)) hde
      exact ⟨hI2.real nb.1 de.1 de.2 hlook, hI2.nonneg nb.1 de.1 de.2 hlook⟩
  exact relaxOne_inv nn hedge hI3 hfacts.1 hfacts.2

theorem sweep_inv {topo : Topology} (wf : TopoWF topo) (nn : TopoNonNeg topo)
    {t : Dvr.Tables} (hI : Dvr.Inv topo t) :
    Dvr.Inv topo (Dvr.sweepT topo t) := by
  refine foldl_pres (fun acc => Dvr.Inv topo acc.1) _ topo (t, false) ?_ hI
  intro acc2 p hp hI2
  exact update_inv wf nn hp acc2.1 hI2

theorem init_inv {topo : Topology} : Dvr.Inv topo (Dvr.init_tables topo) := by
  have hlook : ∀ n d e, alookup2 (Dvr.init_tables topo) n d = some e →
      n = d ∧ e = (0, n) ∧ n ∈ keysOf topo := by
    intro n d e he
    rw [alookup2, Dvr.init_tables,
      alookup_map_key (fun key => [(key, ((0 : ℤ), key))]) topo n] at he
    by_cases hn : n ∈ keysOf topo
    · rw [if_pos hn] at he
      by_cases hd : n = d
      · subst hd
        simp [alookup] at he
        exact ⟨rfl, by rw [← he], hn⟩
      · simp [alookup, hd] at he
    · rw [if_neg hn] at he
      cases he
  constructor
  · intro n d e he
    obtain ⟨rfl, he2, _⟩ := hlook n d e he
    rw [he2]
    exact ⟨[n], isWalk_single topo n⟩
  · intro p hp
    rw [Dvr.init_tables] at hp
    obtain ⟨q, _, hq⟩ := List.mem_map.mp hp
    rw [← hq]
    simp [keysOf]
  · intro n d e he
    obtain ⟨_, he2, _⟩ := hlook n d e he
    rw [he2]
  · intro n hn
    refine ⟨n, ?_⟩
    rw [alookup2, Dvr.init_tables,
      alookup_map_key (fun key => [(key, ((0 : ℤ), key))]) topo n,
      if_pos hn]
    simp [alookup]

theorem dvr_convergence_inv {topo : Topology} (wf : TopoWF topo)
    (nn : TopoNonNeg topo) :
    ∀ (fuel : ℕ) (t T : Dvr.Tables), Dvr.Inv topo t →
    Dvr.dvr_convergence topo fuel t = some T → Dvr.Inv topo T := by
  intro fuel
  induction fuel with
  | zero =>
    intro t T _ h
    cases h
  | succ n ih =>
    intro t T hI h
    rw [Dvr.dvr_convergence] at h
    by_cases hc : (Dvr.sweepF topo t).1 = t ∨ (Dvr.sweepF topo t).2 = false
    · rw [if_pos hc] at h
      injection h with h2
      rw [← h2]
      exact sweep_inv wf nn hI
    · rw [if_neg hc] at h
      exact ih _ _ (sweep_inv wf nn hI) h

/-! ## The convergence loop returns sweep fixpoints -/

theorem foldl_flag {β : Type} (f : Dvr.Tables × Bool → β → Dvr.Tables × Bool)
    (hf : ∀ acc x, (f acc x).2 = false → f acc x = acc ∧ acc.2 = false) :
    ∀ (l : List β) (acc : Dvr.Tables × Bool),
    (l.foldl f acc).2 = false → l.foldl f acc = acc ∧ acc.2 = false := by
  intro l
  induction l with
  | nil =>
    intro acc h
    exact ⟨rfl, h⟩
  | cons x xs ih =>
    intro acc h
    rw [List.foldl_cons] at h ⊢
    obtain ⟨h1, h2⟩ := ih (f acc x) h
    obtain ⟨h3, h4⟩ := hf acc x h2
    rw [h1, h3]
    exact ⟨rfl, h4⟩

theorem relaxOne_flag {node neighbor : ℕ} {lc : ℤ}
    (acc : Dvr.Tables × Bool) (de : ℕ × Dvr.Entry)
    (h : (Dvr.relaxOne node neighbor lc acc de).2 = false) :
    Dvr.relaxOne node neighbor lc acc de = acc ∧ acc.2 = false := by
  rcases relaxOne_spec node neighbor lc acc de with h1 | ⟨h1, _⟩
  · rw [h1] at h
    exact ⟨h1, h⟩
  · rw [h1] at h
    cases h

theorem sweepF_flag {topo : Topology} {t : Dvr.Tables}
    (h : (Dvr.sweepF topo t).2 = false) : (Dvr.sweepF topo t).1 = t := by
  have upd : ∀ (acc2 : Dvr.Tables × Bool) (p : ℕ × Row),
      ((fun acc3 (p2 : ℕ × Row) =>
        let r := Dvr.update_routing_table acc3.1 p2.1 p2.2
        ((r.1, acc3.2 || r.2) : Dvr.Tables × Bool)) acc2 p).2 = false →
      (fun acc3 (p2 : ℕ × Row) =>
        let r := Dvr.update_routing_table acc3.1 p2.1 p2.2
        ((r.1, acc3.2 || r.2) : Dvr.Tables × Bool)) acc2 p = acc2 ∧
        acc2.2 = false := by
    intro acc2 p hh
    simp only [Bool.or_eq_false_iff] at hh
    have inner : ∀ (acc3 : Dvr.Tables × Bool) (nb : ℕ × ℤ),
        (((alookup acc3.1 nb.1).getD []).foldl
          (Dvr.relaxOne p.1 nb.1 nb.2) acc3).2 = false →
        ((alookup acc3.1 nb.1).getD []).foldl
          (Dvr.relaxOne p.1 nb.1 nb.2) acc3 = acc3 ∧ acc3.2 = false :=
      fun acc3 nb hh2 =>
        foldl_flag _ (fun acc4 de => relaxOne_flag acc4 de) _ acc3 hh2
    have hr := foldl_flag _ inner p.2 (acc2.1, false) hh.2
    simp only
    rw [show Dvr.update_routing_table acc2.1 p.1 p.2 =
        p.2.foldl (fun acc3 nb => ((alookup acc3.1 nb.1).getD []).foldl
          (Dvr.relaxOne p.1 nb.1 nb.2) acc3) (acc2.1, false) from rfl, hr.1]
    obtain ⟨t1, b1⟩ := acc2
    have hb : b1 = false := hh.1
    subst hb
    exact ⟨rfl, rfl⟩
  have hfold := foldl_flag _ upd topo (t, false) h
  rw [show Dvr.sweepF topo t = topo.foldl (fun acc (p : ℕ × Row) =>
      let r := Dvr.update_routing_table acc.1 p.1 p.2
      ((r.1, acc.2 || r.2) : Dvr.Tables × Bool)) (t, false) from rfl, hfold.1]

theorem dvr_convergence_fix {topo : Topology} :
    ∀ {fuel : ℕ} {t T : Dvr.Tables},
    Dvr.dvr_convergence topo fuel t = some T → Dvr.sweepT topo T = T := by
  intro fuel
  induction fuel with
  | zero =>
    intro t T h
    cases h
  | succ n ih =>
    intro t T h
    rw [Dvr.dvr_convergence] at h
    by_cases hc : (Dvr.sweepF topo t).1 = t ∨ (Dvr.sweepF topo t).2 = false
    · rw [if_pos hc] at h
      injection h with h2
      have hft : (Dvr.sweepF topo t).1 = t := by
        rcases hc with h3 | h3
        · exact h3
        · exact sweepF_flag h3
      rw [← h2, Dvr.sweepT, hft]
      rw [hft]
    · rw [if_neg hc] at h
      exact ih h

theorem listLt_irrefl : ∀ l : List ℕ, Lsr.listLt l l = false := by
  intro l
  induction l with
  | nil => rfl
  | cons a as ih => simp [Lsr.listLt, ih]

theorem listLt_trans : ∀ a b c : List ℕ, Lsr.listLt a b = true →
    Lsr.listLt b c = true → Lsr.listLt a c = true := by
  intro a
  induction a with
  | nil =>
    intro b c hab hbc
    cases b with
    | nil => simp [Lsr.listLt] at hab
    | cons y ys =>
      cases c with
      | nil => simp [Lsr.listLt] at hbc
      | cons z zs => rfl
  | cons x xs ih =>
    intro b c hab hbc
    cases b with
    | nil => simp [Lsr.listLt] at hab
    | cons y ys =>
      cases c with
      | nil => simp [Lsr.listLt] at hbc
      | cons z zs =>
        simp only [Lsr.listLt] at hab hbc ⊢
        split_ifs at hab hbc ⊢ <;>
          first
          | rfl
          | omega
          | (exact ih ys zs hab hbc)
          | simp at hab
          | simp at hbc

theorem listLt_false_trans : ∀ a b c : List ℕ, Lsr.listLt a b = false →
    Lsr.listLt b c = false → Lsr.listLt a c = false := by
  intro a
  induction a with
  | nil =>
    intro b c hab hbc
    cases b with
    | nil =>
      cases c with
      | nil => rfl
      | cons z zs => simpa [Lsr.listLt] using hbc
    | cons y ys => simp [Lsr.listLt] at hab
  | cons x xs ih =>
    intro b c hab hbc
    cases c with
    | nil => rfl
    | cons z zs =>
      cases b with
      | nil => simp [Lsr.listLt] at hbc
      | cons y ys =>
        simp only [Lsr.listLt] at hab hbc ⊢
        split_ifs at hab hbc ⊢ <;>
          first
          | rfl
          | omega
          | (exact ih ys zs hab hbc)
          | simp at hab
          | simp at hbc

theorem pqLt_irrefl (x : Lsr.PqElem) : Lsr.pqLt x x = false := by
  simp [Lsr.pqLt, listLt_irrefl]

theorem pqLt_trans {x y z : Lsr.PqElem} (hxy : Lsr.pqLt x y = true)
    (hyz : Lsr.pqLt y z = true) : Lsr.pqLt x z = true := by
  simp only [Lsr.pqLt] at hxy hyz ⊢
  split_ifs at hxy hyz ⊢ <;>
    first
    | rfl
    | omega
    | (exact listLt_trans _ _ _ hxy hyz)
    | simp at hxy
    | simp at hyz

theorem pqLt_false_trans {x y z : Lsr.PqElem} (hxy : Lsr.pqLt x y = false)
    (hyz : Lsr.pqLt y z = false) : Lsr.pqLt x z = false := by
  simp only [Lsr.pqLt] at hxy hyz ⊢
  split_ifs at hxy hyz ⊢ <;>
    first
    | rfl
    | omega
    | (exact listLt_false_trans _ _ _ hxy hyz)
    | simp at hxy
    | simp at hyz

theorem pqLt_asymm {x y : Lsr.PqElem} (h : Lsr.pqLt x y = true) :
    Lsr.pqLt y x = false := by
  by_contra hc
  have h2 : Lsr.pqLt y x = true := by
    cases hyx : Lsr.pqLt y x
    · exact absurd hyx hc
    · rfl
  have := pqLt_trans h h2
  rw [pqLt_irrefl] at this
  exact absurd this (by simp)

theorem popMin_ne_none : ∀ (x : Lsr.PqElem) (xs : List Lsr.PqElem),
    Lsr.popMin (x :: xs) ≠ none := by
  intro x xs
  rw [Lsr.popMin]
  rcases Lsr.popMin xs with _ | mr
  · simp
  · obtain ⟨m, rest⟩ := mr
    by_cases h : Lsr.pqLt m x <;> simp [h]

theorem popMin_min : ∀ (l : List Lsr.PqElem) (e : Lsr.PqElem)
    (rest : List Lsr.PqElem), Lsr.popMin l = some (e, rest) →
    ∀ y ∈ l, Lsr.pqLt y e = false := by
  intro l
  induction l with
  | nil =>
    intro e rest h
    simp [Lsr.popMin] at h
  | cons x xs ih =>
    intro e rest h y hy
    rw [Lsr.popMin] at h
    rcases hxs : Lsr.popMin xs with _ | mr
    · simp only [hxs] at h
      have hex : e = x := by
        injection h with h1
        injection h1 with h2 h3
        exact h2.symm
      have hxsnil : xs = [] := by
        cases xs with
        | nil => rfl
        | cons z zs => exact absurd hxs (popMin_ne_none z zs)
      subst hxsnil
      subst hex
      rcases List.mem_cons.mp hy with rfl | hys
      · exact pqLt_irrefl y
      · simp at hys
    · obtain ⟨m, rest'⟩ := mr
      simp only [hxs] at h
      by_cases hmx : Lsr.pqLt m x
      · rw [if_pos hmx] at h
        have hem : e = m := by
          injection h with h1
          injection h1 with h2 h3
          exact h2.symm
        subst hem
        rcases List.mem_cons.mp hy with rfl | hys
        · exact pqLt_asymm hmx
        · exact ih e rest' hxs y hys
      · rw [if_neg hmx] at h
        have hex : e = x := by
          injection h with h1
          injection h1 with h2 h3
          exact h2.symm
        subst hex
        rcases List.mem_cons.mp hy with rfl | hys
        · exact pqLt_irrefl y
        · have h1 : Lsr.pqLt y m = false := ih m rest' hxs y hys
          have h2 : Lsr.pqLt m e = false := by
            cases hq : Lsr.pqLt m e
            · rfl
            · exact absurd hq hmx
          exact pqLt_false_trans h1 h2

theorem popMin_perm : ∀ (l : List Lsr.PqElem) (e : Lsr.PqElem)
    (rest : List Lsr.PqElem), Lsr.popMin l = some (e, rest) →
    l.Perm (e :: rest) := by
  intro l
  induction l with
  | nil =>
    intro e rest h
    simp [Lsr.popMin] at h
  | cons x xs ih =>
    intro e rest h
    rw [Lsr.popMin] at h
    rcases hxs : Lsr.popMin xs with _ | mr
    · simp only [hxs] at h
      injection h with h1
      injection h1 with h2 h3
      subst h2
      subst h3
      have hxsnil : xs = [] := by
        cases xs with
        | nil => rfl
        | cons z zs => exact absurd hxs (popMin_ne_none z zs)
      subst hxsnil
      exact List.Perm.refl _
    · obtain ⟨m, rest'⟩ := mr
      simp only [hxs] at h
      by_cases hmx : Lsr.pqLt m x
      · rw [if_pos hmx] at h
        injection h with h1
        injection h1 with h2 h3
        subst h2
        subst h3
        exact ((ih m rest' hxs).cons x).trans (List.Perm.swap m x rest')
      · rw [if_neg hmx] at h
        injection h with h1
        injection h1 with h2 h3
        subst h2
        subst h3
        exact List.Perm.refl _

/-! ## Link-state (Dijkstra) loop invariant -/

theorem alookup_map_const {α β : Type} (c : β) :
    ∀ (l : List (ℕ × α)) (k : ℕ),
    alookup (l.map (fun p => (p.1, c))) k =
      if k ∈ keysOf l then some c else none := by
  intro l
  induction l with
  | nil => intro k; simp [alookup, keysOf]
  | cons p rest ih =>
    intro k
    by_cases hp : p.1 = k
    · subst hp
      simp [alookup, keysOf]
    · rw [List.map_cons, alookup, if_neg hp, ih, keysOf_cons]
      by_cases hk : k ∈ keysOf rest
      · rw [if_pos hk, if_pos (List.mem_cons_of_mem _ hk)]
      · rw [if_neg hk, if_neg]
        intro hc
        rcases List.mem_cons.mp hc with h1 | h2
        · exact hp h1.symm
        · exact hk h2

theorem keysOf_map_const {α β : Type} (c : β) :
    ∀ l : List (ℕ × α), keysOf (l.map (fun p => (p.1, c))) = keysOf l := by
  intro l
  induction l with
  | nil => rfl
  | cons p rest ih =>
    rw [List.map_cons, keysOf_cons, keysOf_cons, ih]

theorem relax_all_eq (net : Lsr.Network) (d : ℤ) (u : ℕ) (p : List ℕ)
    (st : Lsr.DijState) :
    Lsr.relax_all net d u p st =
      ((alookup net u).getD []).foldl (Lsr.relaxStep d u p) st := rfl

theorem relaxStep_J {net : Lsr.Network} (nn : TopoNonNeg net) {s u : ℕ}
    {d : ℤ} {p : List ℕ} (hp : IsWalk net s u p d)
    {st : Lsr.DijState} (hJ : Lsr.RelaxJ net s u d st)
    {vw : ℕ × ℤ} (hlink : alookup2 net u vw.1 = some vw.2) :
    Lsr.RelaxJ net s u d (Lsr.relaxStep d u p st vw) ∧
    (∀ x, Lsr.getDist (Lsr.relaxStep d u p st vw) x ≤ Lsr.getDist st x) ∧
    Lsr.getDist (Lsr.relaxStep d u p st vw) vw.1 ≤
      ((d + vw.2 : ℤ) : WithTop ℤ) := by
  obtain ⟨row0, hrow0, hvrow⟩ := alookup2_some_elim hlink
  have hw0 : 0 ≤ vw.2 :=
    nn (u, row0) (alookup_mem hrow0) (vw.1, vw.2) (alookup_mem hvrow)
  have hd0 : 0 ≤ d := wcost_nonneg nn p d hp.2.2
  by_cases hlt : ((d + vw.2 : ℤ) : WithTop ℤ) < Lsr.getDist st vw.1
  · have hvu : vw.1 ≠ u := by
      intro hvu
      rw [hvu, hJ.dist_u] at hlt
      have h2 : d + vw.2 < d := by exact_mod_cast hlt
      omega
    have hvs : vw.1 ≠ s := by
      intro hvs
      rw [hvs] at hlt
      have h0 := lt_of_lt_of_le hlt hJ.start_le
      have h2 : d + vw.2 < 0 := by exact_mod_cast h0
      omega
    have hst' : Lsr.relaxStep d u p st vw =
        { dist := aset st.dist vw.1 ((d + vw.2 : ℤ) : WithTop ℤ)
          prev := aset st.prev vw.1 (some u)
          paths := aset st.paths vw.1 (p ++ [vw.1])
          pq := st.pq ++ [(d + vw.2, vw.1, p ++ [vw.1])] } := by
      simp only [Lsr.relaxStep]
      rw [if_pos hlt]
    have hpq' : (Lsr.relaxStep d u p st vw).pq =
        st.pq ++ [(d + vw.2, vw.1, p ++ [vw.1])] := by rw [hst']
    have hpaths' : (Lsr.relaxStep d u p st vw).paths =
        aset st.paths vw.1 (p ++ [vw.1]) := by rw [hst']
    have hdist : ∀ x, Lsr.getDist (Lsr.relaxStep d u p st vw) x =
        if x = vw.1 then ((d + vw.2 : ℤ) : WithTop ℤ)
        else Lsr.getDist st x := by
      intro x
      rw [hst']
      by_cases hx : x = vw.1
      · rw [if_pos hx, hx]
        show (alookup (aset st.dist vw.1 ((d + vw.2 : ℤ) : WithTop ℤ))
          vw.1).getD ⊤ = ((d + vw.2 : ℤ) : WithTop ℤ)
        rw [alookup_aset_self]
        rfl
      · rw [if_neg hx]
        show (alookup (aset st.dist vw.1 ((d + vw.2 : ℤ) : WithTop ℤ))
          x).getD ⊤ = Lsr.getDist st x
        rw [alookup_aset_ne _ _ _ _ hx]
        rfl
    have hmono : ∀ x, Lsr.getDist (Lsr.relaxStep d u p st vw) x ≤
        Lsr.getDist st x := by
      intro x
      rw [hdist x]
      by_cases hx : x = vw.1
      · rw [if_pos hx, hx]
        exact le_of_lt hlt
      · rw [if_neg hx]
    have hwalkv : IsWalk net s vw.1 (p ++ [vw.1]) (d + vw.2) :=
      isWalk_snoc p hp hlink
    refine ⟨⟨?_, ?_, ?_, ?_, ?_, ?_, ?_, ?_⟩, hmono, ?_⟩
    · intro e he
      rw [hpq'] at he
      rcases List.mem_append.mp he with h1 | h2
      · exact hJ.pq_walk e h1
      · have he2 : e = (d + vw.2, vw.1, p ++ [vw.1]) := by simpa using h2
        subst he2
        exact hwalkv
    · intro e he
      rw [hpq'] at he
      rcases List.mem_append.mp he with h1 | h2
      · exact (hmono e.2.1).trans (hJ.pq_ge e h1)
      · have he2 : e = (d + vw.2, vw.1, p ++ [vw.1]) := by simpa using h2
        subst he2
        simp [hdist]
    · intro x c hc
      rw [hdist x] at hc
      by_cases hx : x = vw.1
      · rw [if_pos hx] at hc
        have hce : d + vw.2 = c := by exact_mod_cast hc
        subst hx
        exact ⟨p ++ [vw.1], hce ▸ hwalkv⟩
      · rw [if_neg hx] at hc
        exact hJ.dist_real x c hc
    · intro x c hxu hc
      rw [hdist x] at hc
      by_cases hx : x = vw.1
      · rw [if_pos hx] at hc
        have hce : d + vw.2 = c := by exact_mod_cast hc
        subst hx
        refine Or.inl ⟨p ++ [vw.1], ?_⟩
        rw [hpq', ← hce]
        exact List.mem_append_right _ (List.mem_cons_self _ _)
      · rw [if_neg hx] at hc
        rcases hJ.closureE x c hxu hc with ⟨p2, hp2⟩ | hr
        · exact Or.inl ⟨p2, by rw [hpq']; exact List.mem_append_left _ hp2⟩
        · refine Or.inr ?_
          intro v2 w2 hw2
          exact (hmono v2).trans (hr v2 w2 hw2)
    · rw [hdist u, if_neg (fun h => hvu h.symm)]
      exact hJ.dist_u
    · rw [hdist s, if_neg (fun h => hvs h.symm)]
      exact hJ.start_le
    · show alookup (Lsr.relaxStep d u p st vw).paths s = some [s]
      rw [hpaths', alookup_aset_ne _ _ _ _ (Ne.symm hvs)]
      exact hJ.start_path
    · show (keysOf (Lsr.relaxStep d u p st vw).paths).Nodup
      rw [hpaths']
      exact keysOf_aset_nodup _ _ hJ.paths_nodup
    · rw [hdist vw.1, if_pos rfl]
  · have hst' : Lsr.relaxStep d u p st vw = st := by
      simp only [Lsr.relaxStep]
      rw [if_neg hlt]
    rw [hst']
    exact ⟨hJ, fun x => le_refl _, not_lt.mp hlt⟩

theorem relax_fold_J {net : Lsr.Network} (nn : TopoNonNeg net) {s u : ℕ}
    {d : ℤ} {p : List ℕ} (hp : IsWalk net s u p d) :
    ∀ (row : List (ℕ × ℤ)) (st : Lsr.DijState),
    (∀ vw ∈ row, alookup2 net u vw.1 = some vw.2) →
    Lsr.RelaxJ net s u d st →
    Lsr.RelaxJ net s u d (row.foldl (Lsr.relaxStep d u p) st) ∧
    (∀ x, Lsr.getDist (row.foldl (Lsr.relaxStep d u p) st) x ≤
      Lsr.getDist st x) ∧
    (∀ vw ∈ row, Lsr.getDist (row.foldl (Lsr.relaxStep d u p) st) vw.1 ≤
      ((d + vw.2 : ℤ) : WithTop ℤ)) := by
  intro row
  induction row with
  | nil =>
    intro st _ hJ
    exact ⟨hJ, fun x => le_refl _, by simp⟩
  | cons vw rest ih =>
    intro st hrow hJ
    rw [List.foldl_cons]
    obtain ⟨hJ1, hmono1, hv1⟩ :=
      relaxStep_J nn hp hJ (hrow vw (List.mem_cons_self _ _))
    obtain ⟨hJ2, hmono2, hrest2⟩ := ih (Lsr.relaxStep d u p st vw)
      (fun vw2 h2 => hrow vw2 (List.mem_cons_of_mem _ h2)) hJ1
    refine ⟨hJ2, fun x => (hmono2 x).trans (hmono1 x), ?_⟩
    intro vw2 h2
    rcases List.mem_cons.mp h2 with rfl | h3
    · exact (hmono2 vw2.1).trans hv1
    · exact hrest2 vw2 h3

theorem relax_all_inv {net : Lsr.Network} (wf : TopoWF net)
    (nn : TopoNonNeg net) {s u : ℕ} {d : ℤ} {p : List ℕ}
    (hp : IsWalk net s u p d) {st : Lsr.DijState}
    (hJ : Lsr.RelaxJ net s u d st) :
    Lsr.DijInv net s (Lsr.relax_all net d u p st) := by
  rw [relax_all_eq]
  rcases hnet : alookup net u with _ | row
  · simp only [Option.getD_none, List.foldl_nil]
    refine ⟨hJ.pq_walk, hJ.pq_ge, hJ.dist_real, ?_, hJ.start_le,
      hJ.start_path, hJ.paths_nodup⟩
    intro x c hc
    by_cases hx : x = u
    · subst hx
      refine Or.inr ?_
      intro v w hw
      rw [alookup2_of_none hnet] at hw
      cases hw
    · exact hJ.closureE x c hx hc
  · simp only [Option.getD_some]
    have hrownd : (keysOf row).Nodup :=
      wf.rows_nodup (u, row) (alookup_mem hnet)
    have hrowlinks : ∀ vw ∈ row, alookup2 net u vw.1 = some vw.2 := by
      intro vw hvw
      rw [alookup2_of_lookup hnet]
      exact mem_alookup hrownd hvw
    obtain ⟨hJ2, hmono2, hclosed⟩ := relax_fold_J nn hp row st hrowlinks hJ
    refine ⟨hJ2.pq_walk, hJ2.pq_ge, hJ2.dist_real, ?_, hJ2.start_le,
      hJ2.start_path, hJ2.paths_nodup⟩
    intro x c hc
    by_cases hx : x = u
    · subst hx
      have hcd : c = d := by
        have h1 := hJ2.dist_u
        rw [hc] at h1
        exact_mod_cast h1
      refine Or.inr ?_
      intro v w hw
      rw [hcd]
      obtain ⟨row2, hrow2, hv2⟩ := alookup2_some_elim hw
      rw [hnet] at hrow2
      injection hrow2 with hre
      subst hre
      exact hclosed (v, w) (alookup_mem hv2)
    · exact hJ2.closureE x c hx hc

theorem pop_skip_inv {net : Lsr.Network} {s : ℕ} {st : Lsr.DijState}
    (hI : Lsr.DijInv net s st) {e : Lsr.PqElem} {rest : List Lsr.PqElem}
    (hperm : st.pq.Perm (e :: rest))
    (hgt : Lsr.getDist st e.2.1 < ((e.1 : ℤ) : WithTop ℤ)) :
    Lsr.DijInv net s { st with pq := rest } := by
  have hmem : ∀ x ∈ rest, x ∈ st.pq := fun x hx =>
    hperm.mem_iff.mpr (List.mem_cons_of_mem _ hx)
  refine ⟨fun x hx => hI.pq_walk x (hmem x hx),
    fun x hx => hI.pq_ge x (hmem x hx), hI.dist_real, ?_,
    hI.start_le, hI.start_path, hI.paths_nodup⟩
  intro x c hc
  have hc2 : Lsr.getDist st x = ((c : ℤ) : WithTop ℤ) := hc
  rcases hI.closure_q x c hc2 with ⟨p2, hp2⟩ | hr
  · rcases List.mem_cons.mp (hperm.mem_iff.mp hp2) with he2 | hr2
    · exfalso
      have hgt2 : Lsr.getDist st x < ((c : ℤ) : WithTop ℤ) := by
        rw [← he2] at hgt
        exact hgt
      rw [hc2] at hgt2
      exact lt_irrefl _ hgt2
    · exact Or.inl ⟨p2, hr2⟩
  · exact Or.inr hr

theorem pop_relax_J {net : Lsr.Network} {s : ℕ} {st : Lsr.DijState}
    (hI : Lsr.DijInv net s st) {e : Lsr.PqElem} {rest : List Lsr.PqElem}
    (hperm : st.pq.Perm (e :: rest))
    (hle : ((e.1 : ℤ) : WithTop ℤ) ≤ Lsr.getDist st e.2.1) :
    Lsr.RelaxJ net s e.2.1 e.1 { st with pq := rest } := by
  have hmeme : e ∈ st.pq := hperm.mem_iff.mpr (List.mem_cons_self _ _)
  have hmem : ∀ x ∈ rest, x ∈ st.pq := fun x hx =>
    hperm.mem_iff.mpr (List.mem_cons_of_mem _ hx)
  have hde : Lsr.getDist st e.2.1 = ((e.1 : ℤ) : WithTop ℤ) :=
    le_antisymm (hI.pq_ge e hmeme) hle
  refine ⟨fun x hx => hI.pq_walk x (hmem x hx),
    fun x hx => hI.pq_ge x (hmem x hx), hI.dist_real, ?_, hde,
    hI.start_le, hI.start_path, hI.paths_nodup⟩
  intro x c hxu hc
  rcases hI.closure_q x c hc with ⟨p2, hp2⟩ | hr
  · rcases List.mem_cons.mp (hperm.mem_iff.mp hp2) with he2 | hr2
    · exfalso
      apply hxu
      rw [← he2]
    · exact Or.inl ⟨p2, hr2⟩
  · exact Or.inr hr

theorem dij_loop_inv {net : Lsr.Network} (wf : TopoWF net)
    (nn : TopoNonNeg net) {s : ℕ} :
    ∀ (fuel : ℕ) (st st' : Lsr.DijState), Lsr.DijInv net s st →
    Lsr.dij_loop net fuel st = some st' →
    Lsr.DijInv net s st' ∧ st'.pq = [] := by
  intro fuel
  induction fuel with
  | zero =>
    intro st st' hI h
    rw [Lsr.dij_loop] at h
    by_cases hq : st.pq = []
    · rw [if_pos hq] at h
      injection h with h1
      subst h1
      exact ⟨hI, hq⟩
    · rw [if_neg hq] at h
      cases h
  | succ n ih =>
    intro st st' hI h
    rw [Lsr.dij_loop] at h
    rcases hpop : Lsr.popMin st.pq with _ | er
    · simp only [hpop] at h
      injection h with h1
      have hq : st.pq = [] := by
        cases hq2 : st.pq with
        | nil => rfl
        | cons z zs =>
          rw [hq2] at hpop
          exact absurd hpop (popMin_ne_none z zs)
      subst h1
      exact ⟨hI, hq⟩
    · obtain ⟨e, rest⟩ := er
      simp only [hpop] at h
      have hperm := popMin_perm _ _ _ hpop
      by_cases hgt : ((e.1 : ℤ) : WithTop ℤ) > Lsr.getDist st e.2.1
      · rw [if_pos hgt] at h
        exact ih _ _ (pop_skip_inv hI hperm hgt) h
      · rw [if_neg hgt] at h
        have hle : ((e.1 : ℤ) : WithTop ℤ) ≤ Lsr.getDist st e.2.1 :=
          not_lt.mp hgt
        have hJ := pop_relax_J hI hperm hle
        have hpw : IsWalk net s e.2.1 e.2.2 e.1 :=
          hI.pq_walk e (hperm.mem_iff.mpr (List.mem_cons_self _ _))
        exact ih _ _ (relax_all_inv wf nn hpw hJ) h

theorem getDist_init_self (net : Lsr.Network) (s : ℕ) :
    Lsr.getDist (Lsr.dij_init net s) s = ((0 : ℤ) : WithTop ℤ) := by
  show (alookup (aset (net.map (fun p => (p.1, (⊤ : WithTop ℤ)))) s
    ((0 : ℤ) : WithTop ℤ)) s).getD ⊤ = ((0 : ℤ) : WithTop ℤ)
  rw [alookup_aset_self]
  rfl

theorem getDist_init_ne (net : Lsr.Network) (s u : ℕ) (h : u ≠ s) :
    Lsr.getDist (Lsr.dij_init net s) u = ⊤ := by
  show (alookup (aset (net.map (fun p => (p.1, (⊤ : WithTop ℤ)))) s
    ((0 : ℤ) : WithTop ℤ)) u).getD ⊤ = ⊤
  rw [alookup_aset_ne _ _ _ _ h, alookup_map_const]
  by_cases hk : u ∈ keysOf net
  · rw [if_pos hk]
    rfl
  · rw [if_neg hk]
    rfl

theorem dij_init_inv {net : Lsr.Network} (wf : TopoWF net) (s : ℕ) :
    Lsr.DijInv net s (Lsr.dij_init net s) := by
  refine ⟨?_, ?_, ?_, ?_, ?_, ?_, ?_⟩
  · intro e he
    have h1 : e = ((0 : ℤ), s, [s]) := by
      simpa [Lsr.dij_init] using he
    subst h1
    exact isWalk_single net s
  · intro e he
    have h1 : e = ((0 : ℤ), s, [s]) := by
      simpa [Lsr.dij_init] using he
    subst h1
    exact le_of_eq (getDist_init_self net s)
  · intro u c hc
    by_cases hu : u = s
    · subst hu
      rw [getDist_init_self] at hc
      have hc0 : (0 : ℤ) = c := by exact_mod_cast hc
      exact ⟨[u], hc0 ▸ isWalk_single net u⟩
    · rw [getDist_init_ne net s u hu] at hc
      exact absurd hc (by simp)
  · intro u c hc
    by_cases hu : u = s
    · subst hu
      rw [getDist_init_self] at hc
      have hc0 : (0 : ℤ) = c := by exact_mod_cast hc
      exact Or.inl ⟨[u], by
        rw [← hc0]
        exact List.mem_cons_self _ _⟩
    · rw [getDist_init_ne net s u hu] at hc
      exact absurd hc (by simp)
  · exact le_of_eq (getDist_init_self net s)
  · show alookup (aset (net.map (fun p => (p.1, ([] : List ℕ)))) s [s]) s =
      some [s]
    exact alookup_aset_self _ _ _
  · show (keysOf (aset (net.map (fun p => (p.1, ([] : List ℕ)))) s
      [s])).Nodup
    apply keysOf_aset_nodup
    rw [keysOf_map_const]
    exact wf.keys_nodup

theorem dijkstra_spec {net : Lsr.Network} (wf : TopoWF net)
    (nn : TopoNonNeg net) {s : ℕ} {fuel : ℕ} {st : Lsr.DijState}
    (h : Lsr.dijkstra fuel net s = some st) :
    Lsr.DijInv net s st ∧ st.pq = [] :=
  dij_loop_inv wf nn fuel _ st (dij_init_inv wf s) h

theorem lsr_closure {net : Lsr.Network} {s : ℕ} {st : Lsr.DijState}
    (hI : Lsr.DijInv net s st) (hpq : st.pq = []) :
    ∀ u c, Lsr.getDist st u = ((c : ℤ) : WithTop ℤ) →
    ∀ v w, alookup2 net u v = some w →
      Lsr.getDist st v ≤ ((c + w : ℤ) : WithTop ℤ) := by
  intro u c hc v w hw
  rcases hI.closure_q u c hc with ⟨p2, hp2⟩ | hr
  · rw [hpq] at hp2
    cases hp2
  · exact hr v w hw

theorem lsr_walk_bound {net : Lsr.Network} {st : Lsr.DijState}
    (hcl : ∀ u c, Lsr.getDist st u = ((c : ℤ) : WithTop ℤ) →
      ∀ v w, alookup2 net u v = some w →
        Lsr.getDist st v ≤ ((c + w : ℤ) : WithTop ℤ)) :
    ∀ (l : List ℕ) (a b : ℕ) (c x : ℤ), IsWalk net a b l c →
    Lsr.getDist st a ≤ ((x : ℤ) : WithTop ℤ) →
    Lsr.getDist st b ≤ ((x + c : ℤ) : WithTop ℤ) := by
  intro l
  induction l with
  | nil =>
    intro a b c x h _
    obtain ⟨hh, _, _⟩ := h
    simp at hh
  | cons a0 rest ih =>
    intro a b c x h hx
    obtain ⟨hh, hl, hc⟩ := h
    have ha : a0 = a := by simpa using hh
    subst ha
    cases rest with
    | nil =>
      have hb : a0 = b := by simpa using hl
      subst hb
      have hc0 : c = 0 := by
        rw [wcost] at hc
        injection hc with h1
        omega
      subst hc0
      simpa using hx
    | cons b0 rest2 =>
      obtain ⟨w, r, h1, h2, h3⟩ := wcost_cons_elim hc
      rcases WithTop.le_coe_iff.mp hx with ⟨c0, hc0, hcx⟩
      have hb0 : Lsr.getDist st b0 ≤ ((c0 + w : ℤ) : WithTop ℤ) :=
        hcl a0 c0 hc0 b0 w h1
      have hb0' : Lsr.getDist st b0 ≤ ((x + w : ℤ) : WithTop ℤ) :=
        hb0.trans (by exact_mod_cast add_le_add_right hcx w)
      have htail : IsWalk net b0 b (b0 :: rest2) r :=
        ⟨rfl, by simpa [List.getLast?_cons_cons] using hl, h2⟩
      have hrec := ih b0 b r (x + w) htail hb0'
      have heq : x + w + r = x + c := by omega
      rwa [heq] at hrec

/-! ## The distance-vector fixpoint bounds every walk -/

theorem closure_walk_bound {topo : Topology} {T : Dvr.Tables}
    (hc : Dvr.Closure topo T) (hsz : Dvr.SelfZero topo T) :
    ∀ (l : List ℕ) (a b : ℕ) (c : ℤ), IsWalk topo a b l c →
    b ∈ keysOf topo → ∃ e, alookup2 T a b = some e ∧ e.1 ≤ c := by
  intro l
  induction l with
  | nil =>
    intro a b c h _
    obtain ⟨hh, _, _⟩ := h
    simp at hh
  | cons a0 rest ih =>
    intro a b c h hb
    obtain ⟨hh, hl, hcw⟩ := h
    have ha : a0 = a := by simpa using hh
    subst ha
    cases rest with
    | nil =>
      have hab : a0 = b := by simpa using hl
      subst hab
      have hc0 : c = 0 := by
        rw [wcost] at hcw
        injection hcw with h1
        omega
      obtain ⟨hnh, hself⟩ := hsz a0 hb
      refine ⟨(0, hnh), hself, ?_⟩
      show (0 : ℤ) ≤ c
      omega
    | cons b0 rest2 =>
      obtain ⟨w, r, h1, h2, h3⟩ := wcost_cons_elim hcw
      have htail : IsWalk topo b0 b (b0 :: rest2) r :=
        ⟨rfl, by simpa [List.getLast?_cons_cons] using hl, h2⟩
      obtain ⟨e', he', hle'⟩ := ih b0 b r htail hb
      obtain ⟨row, hrow, hb0⟩ := alookup2_some_elim h1
      obtain ⟨e, he, hle⟩ := hc a0 row hrow b0 w hb0 b e' he'
      exact ⟨e, he, by omega⟩


/-- C1 (code bug): the claim states that an equal-cost candidate through
neighbour `m` replaces the current entry iff `m` is smaller than the next
hop stored in `table[n][d]`, so that the converged table always keeps the
smaller next hop.  The code instead compares `m` with the next hop stored
in the *neighbour's own* entry `table[m][d]` (the loop variable `next_hop`
shadows the intended value).  On the topology `1-2:1, 1-3:1, 2-4:1, 3-4:1`
node 1 reaches node 4 at equal cost 2 through neighbours 2 and 3, yet the
converged table stores next hop 3; and a single relaxation step replaces a
current entry `(2, 2)` with `(2, 3)` even though `3 > 2`. -/
theorem C1_tiebreak_eval :
    Dvr.dvrRun 10 topoC1 = some tablesC1 ∧
    alookup2 tablesC1 1 2 = some (1, 2) ∧
    alookup2 tablesC1 1 3 = some (1, 3) ∧
    alookup2 tablesC1 2 4 = some (1, 4) ∧
    alookup2 tablesC1 3 4 = some (1, 4) ∧
    alookup2 tablesC1 1 4 = some (2, 3) ∧
    alookup2 tC1mid 1 4 = some (2, 2) ∧
    (Dvr.relaxOne 1 3 1 (tC1mid, false) (4, (1, 4))).2 = true ∧
    alookup2 (Dvr.relaxOne 1 3 1 (tC1mid, false) (4, (1, 4))).1 1 4 =
      some (2, 3) := by
  refine ⟨rfl, ?_, ?_, ?_, ?_, ?_, ?_, ?_, ?_⟩ <;> decide

/-- C3 (code bug): on the spec's concrete scenario (topology `A-B:1, B-C:1,
A-C:5` with `A,B,C ↦ 1,2,3`, after the change removing link `A-B`), the
destination C is a direct neighbour of A at cost 5, so the claim requires
the line `from 1 to 3 cost 5 hops 1 message hello`.  The code's
`simulate_messages` turns every one-hop path into the string
`"unreachable"` (`if len(path) > 1 else "unreachable"`), producing a line
with a finite cost and the hops field `unreachable`. -/
theorem C3_one_hop_eval :
    (Dvr.apply_change topoABC 1 2 (-999)).isSome = true ∧
    topoC3 = [(1, [(3, 5)]), (2, [(3, 1)]), (3, [(2, 1), (1, 5)])] ∧
    Dvr.dvrRun 10 topoC3 = some tablesC3 ∧
    alookup2 tablesC3 1 3 = some (5, 3) ∧
    Dvr.simulate_message tablesC3 20 1 3 "hello" =
      some "from 1 to 3 cost 5 hops unreachable message hello" := by
  refine ⟨?_, ?_, rfl, ?_, ?_⟩ <;> decide

/-! ## Claim C10 — the next-hop chase has no defensive bound -/

/-- C10 (code bug): the claim says the chase reaches the destination in at
most `n − 1` steps from a converged table and that a malformed cyclic table
makes the implementation "fail fast via a defensive bound check".  The
`while next_hop != destination` loop of `simulate_messages` has no bound at
all, and the engine's own converged table for the topology `3-4:2, 2-3:0`
(non-negative costs) stores the next-hop cycle `3 ↦ 2 ↦ 3` for destination
4, so forwarding the reachable message `3 → 4` never terminates for any
number of steps. -/
theorem C10_chase_no_bound :
    Dvr.dvrRun 10 topoC10 = some tablesC10 ∧
    alookup2 tablesC10 3 4 = some (2, 2) ∧
    alookup2 tablesC10 2 4 = some (2, 3) ∧
    (∀ fuel path, Dvr.chase tablesC10 4 fuel path 2 = none ∧
      Dvr.chase tablesC10 4 fuel path 3 = none) ∧
    (∀ fuel, Dvr.simulate_message tablesC10 fuel 3 4 "hello" = none) := by
  have key : ∀ fuel path, Dvr.chase tablesC10 4 fuel path 2 = none ∧
      Dvr.chase tablesC10 4 fuel path 3 = none := by
    intro fuel
    induction fuel with
    | zero => exact fun _ => ⟨rfl, rfl⟩
    | succ n ih =>
      intro path
      constructor
      · rw [Dvr.chase, if_neg (by decide : ¬(2 : ℕ) = 4),
          (by decide : alookup2 tablesC10 2 4 = some ((2 : ℤ), 3))]
        exact (ih (path ++ [2])).2
      · rw [Dvr.chase, if_neg (by decide : ¬(3 : ℕ) = 4),
          (by decide : alookup2 tablesC10 3 4 = some ((2 : ℤ), 2))]
        exact (ih (path ++ [3])).1
  refine ⟨rfl, by decide, by decide, key, ?_⟩
  intro fuel
  have hrow : alookup tablesC10 3 =
      some [(3, ((0 : ℤ), 2)), (4, ((2 : ℤ), 2)), (2, ((0 : ℤ), 2))] := by
    decide
  have h4 : alookup
      [(3, ((0 : ℤ), 2)), (4, ((2 : ℤ), 2)), (2, ((0 : ℤ), 2))] 4 =
      some ((2 : ℤ), 2) := by decide
  simp only [Dvr.simulate_message, hrow, h4, (key fuel [3]).1]

/-! ## Claim C9 — the convergence loop can run forever -/

theorem dvr_convergence_step (topo : Topology) (t t' : Dvr.Tables)
    (hs : Dvr.sweepF topo t = (t', true)) (hne : ¬t' = t)
    (h : ∀ fuel, Dvr.dvr_convergence topo fuel t' = none) :
    ∀ fuel, Dvr.dvr_convergence topo fuel t = none := by
  intro fuel
  cases fuel with
  | zero => rfl
  | succ n =>
    simp only [Dvr.dvr_convergence, hs]
    rw [if_neg (by simp [hne])]
    exact h n

theorem dvr_convergence_cycle (topo : Topology) (a b : Dvr.Tables)
    (hab : Dvr.sweepF topo a = (b, true)) (hba : Dvr.sweepF topo b = (a, true))
    (h1 : ¬b = a) (h2 : ¬a = b) :
    ∀ fuel, Dvr.dvr_convergence topo fuel a = none ∧
      Dvr.dvr_convergence topo fuel b = none := by
  intro fuel
  induction fuel with
  | zero => exact ⟨rfl, rfl⟩
  | succ n ih =>
    constructor
    · simp only [Dvr.dvr_convergence, hab]
      rw [if_neg (by simp [h1])]
      exact ih.2
    · simp only [Dvr.dvr_convergence, hba]
      rw [if_neg (by simp [h2])]
      exact ih.1

set_option maxRecDepth 40000 in
/-- C9 (code bug): the claim (and the spec's termination argument, which
relies on the monotone tie-break) says the sweep-to-fixpoint loop
terminates for every topology with non-negative link costs.  On the
topology `1-2:0, 3-4:1, 4-5:1, 2-3:0` the table states after sweeps 4 and 5
form a period-2 cycle (`sweep c9t4 = c9t5`, `sweep c9t5 = c9t4`,
`c9t4 ≠ c9t5` — the entries `table[2][5]` and `table[3][5]` keep swapping
next hops via the broken tie-break), so `dvr_convergence` never exits, for
any number of sweeps. -/
theorem C9_nontermination : ∀ fuel, Dvr.dvrRun fuel topoC9 = none := by
  have cyc := dvr_convergence_cycle topoC9 c9t4 c9t5 (by decide) (by decide)
    (by decide) (by decide)
  have h4 : ∀ fuel, Dvr.dvr_convergence topoC9 fuel c9t4 = none :=
    fun fuel => (cyc fuel).1
  have h3 := dvr_convergence_step topoC9 c9t3 c9t4 (by decide) (by decide) h4
  have h2 := dvr_convergence_step topoC9 c9t2 c9t3 (by decide) (by decide) h3
  have h1 := dvr_convergence_step topoC9 c9t1 c9t2 (by decide) (by decide) h2
  have h0 := dvr_convergence_step topoC9 c9t0 c9t1 (by decide) (by decide) h1
  exact h0

/-! ## Claim C2 — unknown nodes in messages -/

/-- C2 (counterexample): a message whose source node 5 never appeared in
any link makes `simulate_messages` index `self.routing_tables[5]` without a
guard; the code raises `KeyError` (modelled `none`) instead of producing
the unreachable line the claim promises. -/
theorem C2_counterexample :
    alookup tablesTwo 5 = none ∧
    Dvr.simulate_message tablesTwo 20 5 2 "hello" = none :=
  ⟨rfl, rfl⟩

/-- C2 (amended): an unknown *destination* yields the unreachable line
without an exception in both engines, and the link-state
`forward_messages` also guards the source (`source_id in routing_tables`),
so any absent source or destination yields its unreachable line; but the
distance-vector `simulate_messages` raises `KeyError` when the source
itself is absent (see the counterexample). -/
theorem C2_amended :
    (∀ (t : Dvr.Tables) (fuel : Nat) (s d : ℕ) (txt : String) row,
      alookup t s = some row → alookup row d = none →
      Dvr.simulate_message t fuel s d txt =
        some (s!"from {s} to {d} cost infinite hops unreachable message {txt}")) ∧
    (∀ (rts : List (ℕ × List (ℕ × Lsr.LsrEntry))) (s d : ℕ)
      (txt : String), alookup2 rts s d = none →
      Lsr.forward_message rts s d txt =
        s!"from {s} to {d} cost infinite hops unreachable message {txt}") := by
  constructor
  · intro t fuel s d txt row hs hd
    simp only [Dvr.simulate_message, hs, hd]
  · intro rts s d txt h
    simp only [Lsr.forward_message, h]

/-! ## Claim C6 — link removal -/

/-- C6 (counterexample): removing a link whose endpoint 5 was never seen
makes `run_simulation` index `self.topology[5]` and raise `KeyError`
(modelled `none`), so removal is not an error-free no-op for absent
endpoint nodes. -/
theorem C6_counterexample :
    alookup topoTwo 5 = none ∧
    Dvr.apply_change topoTwo 5 1 (-999) = none :=
  ⟨rfl, rfl⟩

/-- C6 (amended): a `-999` change removes the link in both directions and
is idempotent; in dvr.py this is error-free (including when the link is
already absent) only when both endpoint nodes exist, since
`self.topology[nodeX]` raises for unseen nodes, while lsr.py's guarded
handler is a total no-op for absent links or endpoints. -/
theorem C6_amended :
    (∀ (topo : Topology) (n1 n2 : ℕ) r1 r2, n1 ≠ n2 →
      alookup topo n1 = some r1 → alookup topo n2 = some r2 →
      ∃ topo2, Dvr.apply_change topo n1 n2 (-999) = some topo2 ∧
        alookup2 topo2 n1 n2 = none ∧ alookup2 topo2 n2 n1 = none ∧
        Dvr.apply_change topo2 n1 n2 (-999) = some topo2) ∧
    (∀ (net : Lsr.Network) (n1 n2 : ℕ), TopoWF net →
      ∃ net2, Lsr.apply_change net n1 n2 (-999) = some net2 ∧
        alookup2 net2 n1 n2 = none ∧ alookup2 net2 n2 n1 = none ∧
        Lsr.apply_change net2 n1 n2 (-999) = some net2) := by
  constructor
  · intro topo n1 n2 r1 r2 hne h1 h2
    have l1 : alookup (aset topo n1 (apop r1 n2)) n2 = some r2 := by
      rw [alookup_aset_ne _ _ _ _ (Ne.symm hne)]
      exact h2
    have l2 : alookup (aset (aset topo n1 (apop r1 n2)) n2 (apop r2 n1)) n1 =
        some (apop r1 n2) := by
      rw [alookup_aset_ne _ _ _ _ hne, alookup_aset_self]
    have l3 : alookup (aset (aset topo n1 (apop r1 n2)) n2 (apop r2 n1)) n2 =
        some (apop r2 n1) := by
      rw [alookup_aset_self]
    refine ⟨aset (aset topo n1 (apop r1 n2)) n2 (apop r2 n1), ?_, ?_, ?_, ?_⟩
    · norm_num [Dvr.apply_change, h1, l1]
    · rw [alookup2_of_lookup l2, alookup_apop_self]
    · rw [alookup2_of_lookup l3, alookup_apop_self]
    · norm_num [Dvr.apply_change, l2, apop_apop, aset_lookup_eq l2, l3,
        aset_lookup_eq l3]
  · intro net n1 n2 wf
    by_cases hguard : (alookup2 net n1 n2).isSome
    · obtain ⟨c, hc0⟩ := Option.isSome_iff_exists.mp hguard
      obtain ⟨row1, hrow, hc⟩ := alookup2_some_elim hc0
      have hmem1 : (n1, row1) ∈ net := alookup_mem hrow
      have hmem2 : (n2, c) ∈ row1 := alookup_mem hc
      have hne : n1 ≠ n2 := by
        intro he
        exact wf.no_self (n1, row1) hmem1 (n2, c) hmem2 (by simpa using he.symm)
      obtain ⟨row2, hrow2, hsym⟩ :=
        alookup2_some_elim (wf.symm (n1, row1) hmem1 (n2, c) hmem2)
      have l1 : alookup (aset net n1 (apop row1 n2)) n2 = some row2 := by
        rw [alookup_aset_ne _ _ _ _ (Ne.symm hne)]
        exact hrow2
      have l2 : alookup (aset (aset net n1 (apop row1 n2)) n2 (apop row2 n1))
          n1 = some (apop row1 n2) := by
        rw [alookup_aset_ne _ _ _ _ hne, alookup_aset_self]
      have l3 : alookup (aset (aset net n1 (apop row1 n2)) n2 (apop row2 n1))
          n2 = some (apop row2 n1) := by
        rw [alookup_aset_self]
      have k1 : alookup2 (aset (aset net n1 (apop row1 n2)) n2 (apop row2 n1))
          n1 n2 = none := by
        rw [alookup2_of_lookup l2, alookup_apop_self]
      have k2 : alookup2 (aset (aset net n1 (apop row1 n2)) n2 (apop row2 n1))
          n2 n1 = none := by
        rw [alookup2_of_lookup l3, alookup_apop_self]
      refine ⟨aset (aset net n1 (apop row1 n2)) n2 (apop row2 n1), ?_, k1, k2,
        ?_⟩
      · norm_num [Lsr.apply_change, hguard, hrow, l1, hsym]
      · norm_num [Lsr.apply_change, k1]
    · have hnone : alookup2 net n1 n2 = none := by
        rcases ho : alookup2 net n1 n2 with _ | c
        · rfl
        · rw [ho] at hguard
          exact absurd rfl hguard
      have hnone2 : alookup2 net n2 n1 = none := by
        rcases ho : alookup2 net n2 n1 with _ | c
        · rfl
        · obtain ⟨row2, hrow2, hin⟩ := alookup2_some_elim ho
          have := wf.symm (n2, row2) (alookup_mem hrow2) (n1, c)
            (alookup_mem hin)
          rw [hnone] at this
          exact absurd this (by simp)
      refine ⟨net, ?_, hnone, hnone2, ?_⟩ <;>
        norm_num [Lsr.apply_change, hnone]

/-! ## Claim C7 — link addition and update -/

/-- C7 (counterexample): setting a link cost whose endpoint 3 was never
seen makes `run_simulation` index `self.topology[3]` and raise `KeyError`
(modelled `none`); dvr.py does not create unseen endpoints. -/
theorem C7_counterexample :
    alookup topoTwo 3 = none ∧
    Dvr.apply_change topoTwo 3 1 4 = none :=
  ⟨rfl, rfl⟩

/-- C7 (amended): a non-sentinel change sets or overwrites the link cost in
both directions.  lsr.py's `add_link` also creates either previously
unseen endpoint without raising; dvr.py's handler assumes both endpoints
already exist (`self.topology[nodeX][nodeY] = new_cost` raises `KeyError`
otherwise, see the counterexample) and sets both directions when they do. -/
theorem C7_amended :
    (∀ (topo : Topology) (n1 n2 : ℕ) (c : ℤ) r1 r2, ¬c = -999 →
      n1 ≠ n2 → alookup topo n1 = some r1 → alookup topo n2 = some r2 →
      ∃ topo2, Dvr.apply_change topo n1 n2 c = some topo2 ∧
        alookup2 topo2 n1 n2 = some c ∧ alookup2 topo2 n2 n1 = some c) ∧
    (∀ (net : Lsr.Network) (n1 n2 : ℕ) (c : ℤ), n1 ≠ n2 →
      alookup2 (Lsr.add_link net n1 n2 c) n1 n2 = some c ∧
      alookup2 (Lsr.add_link net n1 n2 c) n2 n1 = some c) := by
  have double : ∀ (Y : List (ℕ × Row)) (n1 n2 : ℕ), n1 ≠ n2 →
      ∀ (V W : Row) (c : ℤ),
      alookup2 (aset (aset Y n1 (aset V n2 c)) n2 (aset W n1 c)) n1 n2 =
        some c ∧
      alookup2 (aset (aset Y n1 (aset V n2 c)) n2 (aset W n1 c)) n2 n1 =
        some c := by
    intro Y n1 n2 hne V W c
    constructor
    · have lk : alookup (aset (aset Y n1 (aset V n2 c)) n2 (aset W n1 c)) n1 =
          some (aset V n2 c) := by
        rw [alookup_aset_ne _ _ _ _ hne, alookup_aset_self]
      rw [alookup2_of_lookup lk, alookup_aset_self]
    · rw [alookup2_of_lookup (alookup_aset_self _ _ _), alookup_aset_self]
  constructor
  · intro topo n1 n2 c r1 r2 hc hne h1 h2
    have l1 : alookup (aset topo n1 (aset r1 n2 c)) n2 = some r2 := by
      rw [alookup_aset_ne _ _ _ _ (Ne.symm hne)]
      exact h2
    refine ⟨aset (aset topo n1 (aset r1 n2 c)) n2 (aset r2 n1 c), ?_,
      (double topo n1 n2 hne r1 r2 c).1, (double topo n1 n2 hne r1 r2 c).2⟩
    simp only [Dvr.apply_change, if_neg hc, h1, l1]
  · intro net n1 n2 c hne
    exact ⟨(double _ n1 n2 hne _ _ c).1, (double _ n1 n2 hne _ _ c).2⟩

/-- Witness: the amended C2 at topology `1 2 1`, message `1 → 5` (unknown
destination) for dvr.py and an unknown source for lsr.py. -/
theorem C2_amended_witness :
    Dvr.simulate_message tablesTwo 20 1 5 "hello" =
      some "from 1 to 5 cost infinite hops unreachable message hello" ∧
    Lsr.forward_message [] 3 7 "hi" =
      "from 3 to 7 cost infinite hops unreachable message hi" := by
  constructor
  · have h := C2_amended.1 tablesTwo 20 1 5 "hello"
      ((alookup tablesTwo 1).getD []) rfl (by decide)
    exact h.trans (by decide)
  · have h := C2_amended.2 [] 3 7 "hi" (by decide)
    exact h.trans (by decide)

/-- Witness: the amended C6 at topology `1 2 1`, removing link `1-2` in
both engines. -/
theorem C6_amended_witness :
    (∃ topo2, Dvr.apply_change topoTwo 1 2 (-999) = some topo2 ∧
      alookup2 topo2 1 2 = none ∧ alookup2 topo2 2 1 = none ∧
      Dvr.apply_change topo2 1 2 (-999) = some topo2) ∧
    (∃ net2, Lsr.apply_change topoTwo 1 2 (-999) = some net2 ∧
      alookup2 net2 1 2 = none ∧ alookup2 net2 2 1 = none ∧
      Lsr.apply_change net2 1 2 (-999) = some net2) :=
  ⟨C6_amended.1 topoTwo 1 2 ((alookup topoTwo 1).getD [])
      ((alookup topoTwo 2).getD []) (by decide) rfl rfl,
    C6_amended.2 topoTwo 1 2 ⟨by decide, by decide, by decide, by decide⟩⟩

/-- Witness: the amended C7 at topology `1 2 1`, setting link `1-2` to cost
7 in dvr.py and adding the fresh link `3-4` of cost 7 in lsr.py. -/
theorem C7_amended_witness :
    (∃ topo2, Dvr.apply_change topoTwo 1 2 7 = some topo2 ∧
      alookup2 topo2 1 2 = some 7 ∧ alookup2 topo2 2 1 = some 7) ∧
    (alookup2 (Lsr.add_link topoTwo 3 4 7) 3 4 = some 7 ∧
      alookup2 (Lsr.add_link topoTwo 3 4 7) 4 3 = some 7) :=
  ⟨C7_amended.1 topoTwo 1 2 7 ((alookup topoTwo 1).getD [])
      ((alookup topoTwo 2).getD []) (by decide) (by decide) rfl rfl,
    C7_amended.2 topoTwo 3 4 7 (by decide)⟩

/-! ## Claim C5 — the Dijkstra priority order -/

/-- C5 (counterexample): on the link list `1 3 1 / 1 2 2 / 3 4 2 / 2 4 1`,
Dijkstra from source 1 finds two equal-cost (3) paths to node 4 — `1,2,4`
through the numerically smaller intermediate 2 and `1,3,4` through 3.  The
claim says the engine deterministically keeps the path through the smaller
intermediate candidate; the engine keeps `1,3,4` (node 3 is popped first
because its distance is smaller, and relaxation is strict, so the later
equal-cost path through 2 never replaces it). -/
theorem C5_counterexample :
    Lsr.dijkstra 30 netC5 1 = some stC5 ∧
    wcost netC5 [1, 2, 4] = some 3 ∧
    wcost netC5 [1, 3, 4] = some 3 ∧
    (2 : ℕ) < 3 ∧
    alookup stC5.paths 4 = some [1, 3, 4] ∧
    Lsr.getDist stC5 4 = ((3 : ℤ) : WithTop ℤ) := by
  refine ⟨rfl, by decide, by decide, by decide, by decide, by decide⟩

/-- C5 (amended): the priority structure is ordered by Python's tuple
comparison on `(distance, node, path)` — cumulative distance first, and a
tie between entries for *distinct* frontier nodes is broken by ℕ
order (`heappop` returns a `pqLt`-minimal element).  But when two paths to
the *same* frontier node have equal cost, relaxation is strict
(`distance < distances[neighbor]`), so the engine keeps whichever path
reached that cost first — which can be the path through the numerically
larger intermediate candidate, as on `netC5` where path `1,3,4` is kept
over the equal-cost `1,2,4`. -/
theorem C5_amended :
    (∀ (l : List Lsr.PqElem) (e : Lsr.PqElem) (rest : List Lsr.PqElem),
      Lsr.popMin l = some (e, rest) → ∀ y ∈ l, Lsr.pqLt y e = false) ∧
    (∀ (d1 d2 : ℤ) (n1 n2 : ℕ) (p1 p2 : List ℕ), d1 < d2 →
      Lsr.pqLt (d1, n1, p1) (d2, n2, p2) = true) ∧
    (∀ (d : ℤ) (n1 n2 : ℕ) (p1 p2 : List ℕ), n1 < n2 →
      Lsr.pqLt (d, n1, p1) (d, n2, p2) = true) ∧
    (alookup stC5.paths 4 = some [1, 3, 4] ∧
      Lsr.getDist stC5 4 = ((3 : ℤ) : WithTop ℤ) ∧
      wcost netC5 [1, 2, 4] = some 3 ∧ (2 : ℕ) < 3) := by
  refine ⟨popMin_min, ?_, ?_, by decide, by decide, by decide, by decide⟩
  · intro d1 d2 n1 n2 p1 p2 h
    simp [Lsr.pqLt, h]
  · intro d n1 n2 p1 p2 h
    simp [Lsr.pqLt, h, lt_irrefl]

/-- Witness: the amended C5 applied to the concrete queue
`[(2, 9, [1]), (3, 5, [1])]` (the element of distance 2 is popped although
its node id 9 is larger) and to concrete tuple comparisons. -/
theorem C5_amended_witness :
    Lsr.pqLt ((3 : ℤ), 5, [1]) ((2 : ℤ), 9, [1]) = false ∧
    Lsr.pqLt ((1 : ℤ), 5, [1]) ((2 : ℤ), 1, [1]) = true ∧
    Lsr.pqLt ((2 : ℤ), 1, [9]) ((2 : ℤ), 3, [1]) = true :=
  ⟨C5_amended.1 [((2 : ℤ), 9, [1]), ((3 : ℤ), 5, [1])]
      ((2 : ℤ), 9, [1]) [((3 : ℤ), 5, [1])] (by decide)
      ((3 : ℤ), 5, [1]) (by decide),
    C5_amended.2.1 1 2 5 1 [1] [1] (by decide),
    C5_amended.2.2.1 2 1 3 [9] [1] (by decide)⟩

/-! ## Claim C8 — the self-entry invariant (counterexample half) -/

/-- C8 (counterexample): on the non-negative topology `1 2 0` the converged
distance-vector table holds `table[2][2] = (0, 1)` — the broken tie-break
rewrote the self entry's next hop from 2 to 1, so the invariant
`table[n][n] = (0, n)` does not survive relaxation when a zero-cost link is
present. -/
theorem C8_counterexample :
    (∀ p ∈ topoC8, ∀ q ∈ p.2, 0 ≤ q.2) ∧
    (2 : ℕ) ∈ keysOf topoC8 ∧
    Dvr.dvrRun 10 topoC8 = some tablesC8 ∧
    alookup2 tablesC8 2 2 = some (0, 1) := by
  refine ⟨by decide, by decide, rfl, by decide⟩


/-- C4 (confirmed): on every well-formed topology with non-negative link
costs, whenever the distance-vector convergence loop returns converged
tables and the link-state engine's Dijkstra completes for a source `s`
appearing in the topology, the two engines agree for every destination `d`:
node `s`'s distance-vector table has an entry for `d` exactly when
Dijkstra's recorded distance of `d` is finite, and in that case the stored
cost equals the recorded distance. -/
theorem C4_engines_agree {topo : Topology} {fuel1 fuel2 : ℕ}
    {T : Dvr.Tables} {st : Lsr.DijState} {s : ℕ}
    (wf : TopoWF topo) (nn : TopoNonNeg topo)
    (hT : Dvr.dvrRun fuel1 topo = some T)
    (hst : Lsr.dijkstra fuel2 topo s = some st)
    (hs : s ∈ keysOf topo) :
    ∀ d : ℕ,
      ((∃ e, alookup2 T s d = some e) ↔
        (∃ c : ℤ, Lsr.getDist st d = ((c : ℤ) : WithTop ℤ))) ∧
      (∀ e c, alookup2 T s d = some e →
        Lsr.getDist st d = ((c : ℤ) : WithTop ℤ) → e.1 = c) := by
  have hInv : Dvr.Inv topo T :=
    dvr_convergence_inv wf nn fuel1 _ T init_inv hT
  have hfix : Dvr.sweepT topo T = T := dvr_convergence_fix hT
  have hCl : Dvr.Closure topo T := sweep_extract hfix
  obtain ⟨hI, hpq⟩ := dijkstra_spec wf nn hst
  have hcl := lsr_closure hI hpq
  intro d
  have fwd : ∀ e, alookup2 T s d = some e →
      Lsr.getDist st d ≤ ((e.1 : ℤ) : WithTop ℤ) := by
    intro e he
    obtain ⟨l, hw⟩ := hInv.real s d e he
    have hb := lsr_walk_bound hcl l s d e.1 0 hw hI.start_le
    simpa using hb
  have bwd : ∀ c, Lsr.getDist st d = ((c : ℤ) : WithTop ℤ) →
      ∃ e, alookup2 T s d = some e ∧ e.1 ≤ c := by
    intro c hcd
    obtain ⟨l, hw⟩ := hI.dist_real d c hcd
    exact closure_walk_bound hCl hInv.selfz l s d c hw
      (walk_mem_keys wf hw hs)
  constructor
  · constructor
    · rintro ⟨e, he⟩
      rcases WithTop.le_coe_iff.mp (fwd e he) with ⟨c, hc, _⟩
      exact ⟨c, hc⟩
    · rintro ⟨c, hcd⟩
      obtain ⟨e, he, _⟩ := bwd c hcd
      exact ⟨e, he⟩
  · intro e c he hcd
    have h1 := fwd e he
    rw [hcd] at h1
    have h2 : c ≤ e.1 := by exact_mod_cast h1
    obtain ⟨e2, he2, hle2⟩ := bwd c hcd
    rw [he] at he2
    injection he2 with h3
    subst h3
    omega

set_option maxRecDepth 20000 in
/-- Witness: the engine-agreement theorem applied to the topology
`1 2 2 / 2 3 3`, source 1, destination 3: both hold cost 5. -/
theorem C4_engines_agree_witness :
    ((∃ e, alookup2 tablesC4w 1 3 = some e) ↔
      (∃ c : ℤ, Lsr.getDist stC4w 3 = ((c : ℤ) : WithTop ℤ))) ∧
    (∀ e c, alookup2 tablesC4w 1 3 = some e →
      Lsr.getDist stC4w 3 = ((c : ℤ) : WithTop ℤ) → e.1 = c) :=
  C4_engines_agree ⟨by decide, by decide, by decide, by decide⟩
    (by unfold TopoNonNeg; decide)
    (show Dvr.dvrRun 10 topoC4w = some tablesC4w from rfl)
    (show Lsr.dijkstra 30 topoC4w 1 = some stC4w from rfl)
    (by decide) 3

/-! ## The self-entry invariant -/

theorem relaxOne_selfexact {topo : Topology} (pos : TopoPos topo)
    {node neighbor : ℕ} {lc : ℤ}
    (hedge : alookup2 topo node neighbor = some lc)
    {acc : Dvr.Tables × Bool} (hSE : Dvr.SelfExact topo acc.1)
    {de : ℕ × Dvr.Entry} (hde_nn : 0 ≤ de.2.1) :
    Dvr.SelfExact topo (Dvr.relaxOne node neighbor lc acc de).1 := by
  have hlc : 1 ≤ lc := by
    obtain ⟨row, hrow, hb⟩ := alookup2_some_elim hedge
    exact pos (node, row) (alookup_mem hrow) (neighbor, lc) (alookup_mem hb)
  rcases relaxOne_spec node neighbor lc acc de with h | ⟨h, hcond⟩
  · rw [h]
    exact hSE
  · rw [h]
    intro n hn
    by_cases hnd : n = node ∧ n = de.1
    · obtain ⟨rfl, hd⟩ := hnd
      exfalso
      have hself := hSE n hn
      rcases hcond with hno | ⟨e0, he0, hle⟩
      · rw [← hd] at hno
        rw [hself] at hno
        cases hno
      · rw [← hd] at he0
        rw [hself] at he0
        injection he0 with hq
        have he01 : e0.1 = 0 := by rw [← hq]
        omega
    · rw [show alookup2 (aset2 acc.1 node de.1 (lc + de.2.1, neighbor),
          true).1 n n = alookup2 acc.1 n n
        from alookup2_aset2_ne _ _ _ _ _ _ hnd]
      exact hSE n hn

theorem update_selfexact {topo : Topology} (wf : TopoWF topo)
    (nn : TopoNonNeg topo) (pos : TopoPos topo)
    {node : ℕ} {nbrs : Row} (hmem : (node, nbrs) ∈ topo) :
    ∀ t : Dvr.Tables, Dvr.Inv topo t → Dvr.SelfExact topo t →
    Dvr.Inv topo (Dvr.update_routing_table t node nbrs).1 ∧
    Dvr.SelfExact topo (Dvr.update_routing_table t node nbrs).1 := by
  intro t hI hSE
  refine foldl_pres
    (fun acc => Dvr.Inv topo acc.1 ∧ Dvr.SelfExact topo acc.1) _ nbrs
    (t, false) ?_ ⟨hI, hSE⟩
  intro acc2 nb hnb hP2
  have hedge : alookup2 topo node nb.1 = some nb.2 := by
    rw [alookup2_of_lookup (mem_alookup wf.keys_nodup hmem)]
    exact mem_alookup (wf.rows_nodup _ hmem) hnb
  refine foldl_pres
    (fun acc => Dvr.Inv topo acc.1 ∧ Dvr.SelfExact topo acc.1) _ _ acc2
    ?_ hP2
  intro acc3 de hde hP3
  have hfacts : (∃ l, IsWalk topo nb.1 de.1 l de.2.1) ∧ 0 ≤ de.2.1 := by
    rcases hrow : alookup acc2.1 nb.1 with _ | row
    · rw [hrow] at hde
      simp at hde
    · rw [hrow] at hde
      rw [Option.getD_some] at hde
      have hlook : alookup2 acc2.1 nb.1 de.1 = some de.2 := by
        rw [alookup2_of_lookup hrow]
        exact mem_alookup (hP2.1.rows (nb.1, row) (alookup_mem hrow)) hde
      exact ⟨hP2.1.real nb.1 de.1 de.2 hlook,
        hP2.1.nonneg nb.1 de.1 de.2 hlook⟩
  exact ⟨relaxOne_inv nn hedge hP3.1 hfacts.1 hfacts.2,
    relaxOne_selfexact pos hedge hP3.2 hfacts.2⟩

theorem sweep_selfexact {topo : Topology} (wf : TopoWF topo)
    (nn : TopoNonNeg topo) (pos : TopoPos topo) {t : Dvr.Tables}
    (hI : Dvr.Inv topo t) (hSE : Dvr.SelfExact topo t) :
    Dvr.Inv topo (Dvr.sweepT topo t) ∧
    Dvr.SelfExact topo (Dvr.sweepT topo t) := by
  refine foldl_pres
    (fun acc => Dvr.Inv topo acc.1 ∧ Dvr.SelfExact topo acc.1) _ topo
    (t, false) ?_ ⟨hI, hSE⟩
  intro acc2 p hp hP2
  exact update_selfexact wf nn pos hp acc2.1 hP2.1 hP2.2

theorem init_selfexact {topo : Topology} :
    Dvr.SelfExact topo (Dvr.init_tables topo) := by
  intro n hn
  rw [alookup2, Dvr.init_tables,
    alookup_map_key (fun key => [(key, ((0 : ℤ), key))]) topo n,
    if_pos hn]
  simp [alookup]

theorem dvr_convergence_selfexact {topo : Topology} (wf : TopoWF topo)
    (nn : TopoNonNeg topo) (pos : TopoPos topo) :
    ∀ (fuel : ℕ) (t T : Dvr.Tables), Dvr.Inv topo t →
    Dvr.SelfExact topo t →
    Dvr.dvr_convergence topo fuel t = some T → Dvr.SelfExact topo T := by
  intro fuel
  induction fuel with
  | zero =>
    intro t T _ _ h
    cases h
  | succ n ih =>
    intro t T hI hSE h
    rw [Dvr.dvr_convergence] at h
    by_cases hc : (Dvr.sweepF topo t).1 = t ∨ (Dvr.sweepF topo t).2 = false
    · rw [if_pos hc] at h
      injection h with h2
      rw [← h2]
      exact (sweep_selfexact wf nn pos hI hSE).2
    · rw [if_neg hc] at h
      obtain ⟨hI2, hSE2⟩ := sweep_selfexact wf nn pos hI hSE
      exact ih _ _ hI2 hSE2 h

/-! ## The link-state self entry -/

theorem getDist_final_start {net : Lsr.Network} {s : ℕ}
    {st : Lsr.DijState} (nn : TopoNonNeg net) (hI : Lsr.DijInv net s st) :
    Lsr.getDist st s = ((0 : ℤ) : WithTop ℤ) := by
  rcases WithTop.le_coe_iff.mp hI.start_le with ⟨c, hc, hle⟩
  have hge : 0 ≤ c := by
    obtain ⟨l, hw⟩ := hI.dist_real s c hc
    exact wcost_nonneg nn l c hw.2.2
  have hc0 : c = 0 := le_antisymm hle hge
  rw [hc, hc0]

theorem table_for_fold_pres {node_id : ℕ} {st : Lsr.DijState} :
    ∀ (l : List (ℕ × List ℕ)) (rt : List (ℕ × Lsr.LsrEntry)) (u : ℕ)
    (v : Lsr.LsrEntry), alookup rt u = some v → u ∉ keysOf l →
    alookup (l.foldl (fun rt2 dp =>
      if dp.2 = [] then rt2
      else rt2 ++ [(dp.1, ((match dp.2 with
        | _ :: h :: _ => h
        | _ => node_id), Lsr.getDist st dp.1, dp.2.dropLast))]) rt) u =
      some v := by
  intro l
  induction l with
  | nil =>
    intro rt u v hv _
    exact hv
  | cons dp rest ih =>
    intro rt u v hv hnk
    rw [keysOf_cons, List.mem_cons] at hnk
    push_neg at hnk
    rw [List.foldl_cons]
    by_cases hemp : dp.2 = []
    · rw [if_pos hemp]
      exact ih rt u v hv hnk.2
    · rw [if_neg hemp]
      exact ih _ u v (alookup_append_some _ hv) hnk.2

theorem table_for_fold_mem {node_id : ℕ} {st : Lsr.DijState} :
    ∀ (l : List (ℕ × List ℕ)) (rt : List (ℕ × Lsr.LsrEntry)) (u : ℕ)
    (pu : List ℕ), (keysOf l).Nodup → u ∉ keysOf rt → (u, pu) ∈ l →
    pu ≠ [] →
    alookup (l.foldl (fun rt2 dp =>
      if dp.2 = [] then rt2
      else rt2 ++ [(dp.1, ((match dp.2 with
        | _ :: h :: _ => h
        | _ => node_id), Lsr.getDist st dp.1, dp.2.dropLast))]) rt) u =
      some ((match pu with
        | _ :: h :: _ => h
        | _ => node_id), Lsr.getDist st u, pu.dropLast) := by
  intro l
  induction l with
  | nil =>
    intro rt u pu _ _ hm _
    simp at hm
  | cons dp rest ih =>
    intro rt u pu hnd hnrt hm hne
    rw [keysOf_cons, List.nodup_cons] at hnd
    rw [List.foldl_cons]
    rcases List.mem_cons.mp hm with h1 | h2
    · rw [← h1]
      rw [← h1] at hnd
      rw [if_neg hne]
      apply table_for_fold_pres rest _ u _ _ hnd.1
      rw [alookup_append_none _ (alookup_none_of_not_mem_keys hnrt)]
      simp [alookup]
    · have hku : dp.1 ≠ u := by
        intro he
        exact hnd.1 (he ▸ mem_keys_of_mem h2)
      by_cases hemp : dp.2 = []
      · rw [if_pos hemp]
        exact ih rt u pu hnd.2 hnrt h2 hne
      · rw [if_neg hemp]
        refine ih _ u pu hnd.2 ?_ h2 hne
        intro hk
        rw [show keysOf (rt ++ [(dp.1, ((match dp.2 with
            | _ :: h :: _ => h
            | _ => node_id), Lsr.getDist st dp.1, dp.2.dropLast))]) =
            keysOf rt ++ [dp.1] from by
          rw [keysOf, keysOf, List.map_append]
          rfl] at hk
        rcases List.mem_append.mp hk with h3 | h3
        · exact hnrt h3
        · rcases List.mem_cons.mp h3 with h4 | h4
          · exact hku h4.symm
          · simp at h4

theorem table_for_lookup_single {node_id : ℕ} {st : Lsr.DijState}
    (nd : (keysOf st.paths).Nodup) {u : ℕ}
    (hu : alookup st.paths u = some [u]) :
    alookup (Lsr.table_for node_id st) u =
      some (node_id, Lsr.getDist st u, []) :=
  table_for_fold_mem st.paths [] u [u] nd (by simp [keysOf])
    (alookup_mem hu) (by simp)

theorem build_fold_none {fuel : ℕ} {net : Lsr.Network} :
    ∀ l : List (ℕ × Row),
    (l.foldl (fun acc (p : ℕ × Row) => match acc with
      | none => none
      | some rts2 => match Lsr.dijkstra fuel net p.1 with
        | none => none
        | some st => some (rts2 ++ [(p.1, Lsr.table_for p.1 st)]))
      none) = none := by
  intro l
  induction l with
  | nil => rfl
  | cons p rest ih =>
    rw [List.foldl_cons]
    exact ih

theorem build_fold_pres {fuel : ℕ} {net : Lsr.Network} :
    ∀ (l : List (ℕ × Row)) (rts0 rts : List (ℕ × List (ℕ × Lsr.LsrEntry))),
    (l.foldl (fun acc (p : ℕ × Row) => match acc with
      | none => none
      | some rts2 => match Lsr.dijkstra fuel net p.1 with
        | none => none
        | some st => some (rts2 ++ [(p.1, Lsr.table_for p.1 st)]))
      (some rts0)) = some rts →
    ∀ n v, alookup rts0 n = some v → alookup rts n = some v := by
  intro l
  induction l with
  | nil =>
    intro rts0 rts h n v hv
    injection h with h1
    rw [← h1]
    exact hv
  | cons p rest ih =>
    intro rts0 rts h n v hv
    rw [List.foldl_cons] at h
    rcases hd : Lsr.dijkstra fuel net p.1 with _ | st
    · simp only [hd] at h
      rw [build_fold_none rest] at h
      cases h
    · simp only [hd] at h
      exact ih _ rts h n v (alookup_append_some _ hv)

theorem build_fold_lookup {fuel : ℕ} {net : Lsr.Network} :
    ∀ (l : List (ℕ × Row)) (rts0 rts : List (ℕ × List (ℕ × Lsr.LsrEntry))),
    (l.foldl (fun acc (p : ℕ × Row) => match acc with
      | none => none
      | some rts2 => match Lsr.dijkstra fuel net p.1 with
        | none => none
        | some st => some (rts2 ++ [(p.1, Lsr.table_for p.1 st)]))
      (some rts0)) = some rts →
    ∀ n, n ∉ keysOf rts0 → n ∈ keysOf l →
    ∃ st, Lsr.dijkstra fuel net n = some st ∧
      alookup rts n = some (Lsr.table_for n st) := by
  intro l
  induction l with
  | nil =>
    intro rts0 rts _ n _ hn
    simp [keysOf] at hn
  | cons p rest ih =>
    intro rts0 rts h n hnrts hn
    rw [List.foldl_cons] at h
    rcases hd : Lsr.dijkstra fuel net p.1 with _ | st
    · simp only [hd] at h
      rw [build_fold_none rest] at h
      cases h
    · simp only [hd] at h
      by_cases hnp : n = p.1
      · subst hnp
        refine ⟨st, hd, ?_⟩
        refine build_fold_pres rest _ rts h p.1 _ ?_
        rw [alookup_append_none _ (alookup_none_of_not_mem_keys hnrts)]
        simp [alookup]
      · rw [keysOf_cons, List.mem_cons] at hn
        rcases hn with h1 | h1
        · exact absurd h1 hnp
        · refine ih _ rts h n ?_ h1
          intro hk
          rw [show keysOf (rts0 ++ [(p.1, Lsr.table_for p.1 st)]) =
              keysOf rts0 ++ [p.1] from by
            rw [keysOf, keysOf, List.map_append]
            rfl] at hk
          rcases List.mem_append.mp hk with h3 | h3
          · exact hnrts h3
          · rcases List.mem_cons.mp h3 with h4 | h4
            · exact hnp h4
            · simp at h4

theorem build_rts_lookup {fuel : ℕ} {net : Lsr.Network}
    {rts : List (ℕ × List (ℕ × Lsr.LsrEntry))}
    (h : Lsr.build_routing_tables fuel net = some rts)
    {n : ℕ} (hn : n ∈ keysOf net) :
    ∃ st, Lsr.dijkstra fuel net n = some st ∧
      alookup rts n = some (Lsr.table_for n st) :=
  build_fold_lookup net [] rts h n (by simp [keysOf]) hn

theorem lsr_selfentry {net : Lsr.Network} (wf : TopoWF net)
    (nn : TopoNonNeg net) {fuel : ℕ}
    {rts : List (ℕ × List (ℕ × Lsr.LsrEntry))}
    (h : Lsr.build_routing_tables fuel net = some rts)
    {n : ℕ} (hn : n ∈ keysOf net) :
    alookup2 rts n n = some (n, ((0 : ℤ) : WithTop ℤ), []) := by
  obtain ⟨st, hdij, hlook⟩ := build_rts_lookup h hn
  obtain ⟨hI, _⟩ := dijkstra_spec wf nn hdij
  have hd0 := getDist_final_start nn hI
  rw [alookup2_of_lookup hlook,
    table_for_lookup_single hI.paths_nodup hI.start_path, hd0]

/-- C8 (amended): the self-entry invariant splits by engine.  For the
distance-vector engine it holds on every well-formed topology whose link
costs are all strictly positive: every converged table keeps
`table[n][n] = (0, n)` for every topology node `n` (at zero link costs the
relaxation can overwrite the self entry — `C8_counterexample`).  For the
link-state engine it holds on every well-formed topology with non-negative
costs: the built routing tables hold `table[n][n] = (n, 0, [])`. -/
theorem C8_amended {topo : Topology} (wf : TopoWF topo) :
    (∀ (pos : TopoPos topo) (fuel : ℕ) (T : Dvr.Tables),
      Dvr.dvrRun fuel topo = some T →
      ∀ n ∈ keysOf topo, alookup2 T n n = some (0, n)) ∧
    (∀ (nn : TopoNonNeg topo) (fuel : ℕ)
      (rts : List (ℕ × List (ℕ × Lsr.LsrEntry))),
      Lsr.build_routing_tables fuel topo = some rts →
      ∀ n ∈ keysOf topo,
        alookup2 rts n n = some (n, ((0 : ℤ) : WithTop ℤ), [])) := by
  constructor
  · intro pos fuel T hT n hn
    have nn : TopoNonNeg topo := fun p hp q hq =>
      le_trans zero_le_one (pos p hp q hq)
    exact dvr_convergence_selfexact wf nn pos fuel _ T init_inv
      init_selfexact hT n hn
  · intro nn fuel rts hrts n hn
    exact lsr_selfentry wf nn hrts hn

set_option maxRecDepth 8000 in
/-- Witness: the amended C8 on the topology `1 2 1` at node 1: the
converged distance-vector table holds `(0, 1)` and the link-state table
holds `(1, 0, [])`. -/
theorem C8_amended_witness :
    alookup2 tablesTwo 1 1 = some ((0 : ℤ), 1) ∧
    alookup2 rtsTwo 1 1 = some (1, ((0 : ℤ) : WithTop ℤ), []) := by
  have h := C8_amended (show TopoWF topoTwo from
    ⟨by decide, by decide, by decide, by decide⟩)
  exact ⟨h.1 (by unfold TopoPos; decide) 10 tablesTwo rfl 1 (by decide),
    h.2 (by unfold TopoNonNeg; decide) 30 rtsTwo rfl 1 (by decide)⟩

end Routing
